import Mathlib

/-!
Verification of the MaxScale housekeeper (`server/core/housekeeper.c`).

The housekeeper keeps a singly linked list `tasks` of `HKTASK` records,
protected by a spinlock. We embed the list as `List HKTASK` in list order
(head of the C list = head of the Lean list). The registry operations
`hktask_add`, `hktask_oneshot` and `hktask_remove` are embedded as pure
functions returning the new list together with the C return value; their
list traversals (`addWalk`, `oneshotWalk`, `removeWalk`) mirror the C
`while` loops structurally. The C `taskfn`/`data` pair is modelled by an
opaque callback identifier `cb : Nat`; `time_t` values are `Int` seconds.
Allocation failure (`malloc`/`strdup` returning NULL) is not modelled:
every embedded insertion corresponds to the successful-allocation path.

The per-second due-task scan of `hkthread` is embedded further below as a
fuel-indexed loop `runCycle` over an explicit wall clock, with task
callbacks modelled as sequences of housekeeper API calls together with
the wall-clock seconds they consume (`Effect`).
-/

inductive HKTASK_TYPE
  | HK_REPEATED
  | HK_ONESHOT
deriving DecidableEq

open HKTASK_TYPE

/-- Embedding of `struct hktask`. The `next` pointer is implicit in the
`List` structure; `task` (function pointer) and `data` are fused into the
abstract callback identifier `cb`. -/
structure HKTASK where
  name : String
  cb : Nat
  frequency : Int
  type : HKTASK_TYPE
  nextdue : Int
deriving DecidableEq

/-- The duplicate-checking walk of `hktask_add` (housekeeper.c lines
107-129): the `while (ptr && ptr->next)` loop compares each non-last
node's name, then the last node is compared once more before the new
task is hung off `ptr->next`; an empty list assigns `tasks = task`.
Returns `none` when a name match aborts the insertion. -/
def addWalk (name : String) (task : HKTASK) : List HKTASK → Option (List HKTASK)
  | [] => some [task]
  | [p] => if p.name = name then none else some [p, task]
  | p :: q :: rest =>
    if p.name = name then none
    else (addWalk name task (q :: rest)).map (fun l => p :: l)

/-- Embedding of `hktask_add` (housekeeper.c lines 86-137). Builds a
`HK_REPEATED` task with `nextdue = time(0) + frequency`, walks the list
rejecting any existing entry with the same name, otherwise appends at the
tail. Returns the new list together with the C return value (`0` on
failure, `task->nextdue` on success). `now` is the value of `time(0)`. -/
def hktask_add (tasks : List HKTASK) (name : String) (cb : Nat)
    (frequency : Int) (now : Int) : List HKTASK × Int :=
  let task : HKTASK :=
    { name := name, cb := cb, frequency := frequency
      type := HK_REPEATED, nextdue := now + frequency }
  match addWalk name task tasks with
  | none => (tasks, 0)
  | some l => (l, task.nextdue)

/-- The tail-seeking walk of `hktask_oneshot` (housekeeper.c lines
173-185): no name comparison at all, the new task is simply appended. -/
def oneshotWalk (task : HKTASK) : List HKTASK → List HKTASK
  | [] => [task]
  | p :: rest => p :: oneshotWalk task rest

/-- Embedding of `hktask_oneshot` (housekeeper.c lines 152-189). Builds a
`HK_ONESHOT` task with `frequency = 0` and `nextdue = time(0) + when`,
appends it at the tail with no duplicate check, and returns
`task->nextdue`. -/
def hktask_oneshot (tasks : List HKTASK) (name : String) (cb : Nat)
    (when : Int) (now : Int) : List HKTASK × Int :=
  let task : HKTASK :=
    { name := name, cb := cb, frequency := 0
      type := HK_ONESHOT, nextdue := now + when }
  (oneshotWalk task tasks, task.nextdue)

/-- The search-and-unlink walk of `hktask_remove` (housekeeper.c lines
204-217): advance until the first name match, unlink it. `none` when no
entry matches. -/
def removeWalk (name : String) : List HKTASK → Option (List HKTASK)
  | [] => none
  | p :: rest =>
    if p.name = name then some rest
    else (removeWalk name rest).map (fun l => p :: l)

/-- Embedding of `hktask_remove` (housekeeper.c lines 198-230). Removes
the first entry whose name matches and returns `true` (C returns `1`);
returns the list unchanged and `false` (C returns `0`) when no entry
matches. -/
def hktask_remove (tasks : List HKTASK) (name : String) : List HKTASK × Bool :=
  match removeWalk name tasks with
  | some l => (l, true)
  | none => (tasks, false)

/-- The entries of the list carrying a given name, in list order. -/
def tasksNamed (n : String) (ts : List HKTASK) : List HKTASK :=
  ts.filter (fun e => decide (e.name = n))

/-- Record of one callback invocation performed by the scan of `hkthread`:
the copied `name` and `type` (lines 280-282), the callback `cb`, the
executed entry's `frequency`, the wall-clock time `execTime` at which the
callback was invoked, and the `nextdue` value `wrote = now + frequency`
written into the entry before the lock was released (line 275). -/
structure ExecRecord where
  name : String
  cb : Nat
  type : HKTASK_TYPE
  frequency : Int
  execTime : Int
  wrote : Int
deriving DecidableEq

/-- A housekeeper API call as available to a task callback: the three
registry-mutating entry points of housekeeper.c. -/
inductive HKAction
  | add (name : String) (cb : Nat) (frequency : Int)
  | oneshot (name : String) (cb : Nat) (when : Int)
  | remove (name : String)
deriving DecidableEq

/-- Apply one API call to the registry at wall-clock time `t` (the
callback's call into the housekeeper reads `time(0) = t`). -/
def applyAction (a : HKAction) (ts : List HKTASK) (t : Int) : List HKTASK :=
  match a with
  | .add n c f => (hktask_add ts n c f t).1
  | .oneshot n c w => (hktask_oneshot ts n c w t).1
  | .remove n => (hktask_remove ts n).1

/-- Observable behaviour of one task-callback invocation: a sequence of
API calls, each preceded by the number of wall-clock seconds the callback
spends before issuing it, and `post` further seconds before returning. -/
structure Effect where
  acts : List (Nat × HKAction)
  post : Nat
deriving DecidableEq

/-- Run the API calls of a callback in order, advancing the wall clock by
each call's preceding delay. Returns the final registry and clock. -/
def applyActs : List (Nat × HKAction) → List HKTASK → Int → List HKTASK × Int
  | [], ts, t => (ts, t)
  | (d, a) :: rest, ts, t => applyActs rest (applyAction a ts (t + d)) (t + d)

/-- Run a whole callback invocation: its API calls, then its trailing
delay. -/
def applyEffect (e : Effect) (ts : List HKTASK) (t : Int) : List HKTASK × Int :=
  let r := applyActs e.acts ts t
  (r.1, r.2 + (e.post : Int))

/-- State of one due-task scan of `hkthread`: the registry, the current
wall clock (which advances while callbacks run), and the list of callback
invocations performed so far, oldest first. -/
structure CycleState where
  tasks : List HKTASK
  clock : Int
  log : List ExecRecord
deriving DecidableEq

/-- The due-entry search of the scan loop (housekeeper.c lines 271-295):
walk from the head to the first entry with `nextdue <= now`, write
`nextdue = now + frequency` into it, and return the updated list together
with the found entry's (copied) fields. `none` when a full pass finds no
due entry, which is how the `while (ptr)` loop exits. `now` is the single
`time(0)` reading taken at line 268, before the scan. -/
def findDue (now : Int) : List HKTASK → Option (List HKTASK × HKTASK)
  | [] => none
  | p :: rest =>
    if p.nextdue ≤ now then
      some ({ p with nextdue := now + p.frequency } :: rest, p)
    else (findDue now rest).map (fun x => (p :: x.1, x.2))

/-- One iteration of the scan that found a due entry: update its
`nextdue`, release the lock, invoke the callback (whose behaviour is
`env cb k` where `k` counts the callback invocations made so far in the
process), remove the entry's name if it was a one-shot task (line 287),
reacquire the lock and restart from the head. `none` when no entry is
due, i.e. the scan of this cycle is over. -/
def cycleStep (env : Nat → Nat → Effect) (now : Int) (s : CycleState) :
    Option CycleState :=
  match findDue now s.tasks with
  | none => none
  | some (ts1, e) =>
    let r : ExecRecord :=
      { name := e.name, cb := e.cb, type := e.type, frequency := e.frequency
        execTime := s.clock, wrote := now + e.frequency }
    let eff := env e.cb s.log.length
    let p := applyEffect eff ts1 s.clock
    let ts3 := if e.type = HK_ONESHOT then (hktask_remove p.1 e.name).1 else p.1
    some { tasks := ts3, clock := p.2, log := s.log ++ [r] }

/-- The scan of one cycle as a fuel-indexed loop: `some s` when the
`while (ptr)` loop of `hkthread` exits within `fuel` executed tasks,
`none` when the loop is still running after `fuel` executed tasks. -/
def runCycle (env : Nat → Nat → Effect) (now : Int) :
    Nat → CycleState → Option CycleState
  | 0, _ => none
  | fuel + 1, s =>
    match cycleStep env now s with
    | none => some s
    | some s1 => runCycle env now fuel s1

/-- The state of the scan after `k` executed tasks (or its final state,
if the scan finished earlier). -/
def cycleIter (env : Nat → Nat → Effect) (now : Int) :
    Nat → CycleState → CycleState
  | 0, s => s
  | k + 1, s =>
    match cycleStep env now s with
    | none => s
    | some s1 => cycleIter env now k s1

/-- The scan loop started in state `s` never exits, no matter how many
executed tasks one waits for. -/
def runDiverges (env : Nat → Nat → Effect) (now : Int) (s : CycleState) : Prop :=
  ∀ fuel, runCycle env now fuel s = none

/-- The scan's due test `ptr->nextdue <= now` (line 273). -/
def isDue (now : Int) (e : HKTASK) : Bool := decide (e.nextdue ≤ now)

/-- Number of entries the scan currently considers due. -/
def dueCount (now : Int) (ts : List HKTASK) : Nat := (ts.filter (isDue now)).length

/-- Number of logged callback invocations of entries with a given name. -/
def countName (n : String) (l : List ExecRecord) : Nat :=
  (l.filter (fun r => decide (r.name = n))).length

/-- Does the action insert an entry named `n`? -/
def actInsertsName (n : String) : HKAction → Bool
  | .add m _ _ => decide (m = n)
  | .oneshot m _ _ => decide (m = n)
  | .remove _ => false

/-- Does the action remove entries named `n`? -/
def actRemovesName (n : String) : HKAction → Bool
  | .remove m => decide (m = n)
  | _ => false

/-- Does the action insert an entry with callback `c`? -/
def actInsertsCb (c : Nat) : HKAction → Bool
  | .add _ c2 _ => decide (c2 = c)
  | .oneshot _ c2 _ => decide (c2 = c)
  | .remove _ => false

/-- Does the action only register work lying strictly in the future
(frequency, respectively delay, at least one second)? -/
def actDelayOK : HKAction → Bool
  | .add _ _ f => decide (1 ≤ f)
  | .oneshot _ _ w => decide (1 ≤ w)
  | .remove _ => true

/-- Some API call of the callback inserts an entry named `n`. -/
def effInsertsName (n : String) (e : Effect) : Bool :=
  e.acts.any (fun p => actInsertsName n p.2)

/-- Some API call of the callback removes entries named `n`. -/
def effRemovesName (n : String) (e : Effect) : Bool :=
  e.acts.any (fun p => actRemovesName n p.2)

/-- Some API call of the callback inserts an entry with callback `c`. -/
def effInsertsCb (c : Nat) (e : Effect) : Bool :=
  e.acts.any (fun p => actInsertsCb c p.2)

/-- All API calls of the callback register future work only. -/
def effOK (e : Effect) : Bool := e.acts.all (fun p => actDelayOK p.2)

/-- A callback that calls no housekeeper API and returns immediately. -/
def trivialEffect : Effect := { acts := [], post := 0 }

/-- The inner tick loop of `hkthread` (housekeeper.c lines 259-267): `k`
iterations of `thread_millisleep(100); hkheartbeat++;`, starting from
heartbeat value `hb`, with the shutdown flag never set. -/
def hkTickLoop : Nat → Int → Int
  | 0, hb => hb
  | k + 1, hb => hkTickLoop k (hb + 1)

/-- The heartbeat after `m` outer iterations of `hkthread`'s main loop,
each consisting of ten 100ms ticks followed by a due-task scan (which
never touches `hkheartbeat`), starting from heartbeat `hb`. -/
def hkOuterLoop : Nat → Int → Int
  | 0, hb => hb
  | m + 1, hb => hkOuterLoop m (hkTickLoop 10 hb)

/-- Initial value of the global `hkheartbeat` (housekeeper.c line 52). -/
def hkheartbeat_init : Int := 0

/-- One line of `hkshow_tasks` output. -/
inductive RowLine
  | header1
  | header2
  | taskRow (name : String) (type : HKTASK_TYPE) (frequency : Int) (nextdue : Int)
deriving DecidableEq

/-- Observable events of `hkshow_tasks`: spinlock operations and
`dcb_printf` writes to the caller's DCB. -/
inductive HKEvent
  | acquire
  | release
  | print (line : RowLine)
deriving DecidableEq

/-- The `dcb_printf` of one task row (housekeeper.c lines 331-335). -/
def hkshow_row (p : HKTASK) : HKEvent :=
  .print (.taskRow p.name p.type p.frequency p.nextdue)

/-- Event trace of `hkshow_tasks` (housekeeper.c lines 316-339): two
header lines, `spinlock_acquire`, one row per task in list order, then
`spinlock_release`. -/
def hkshow_tasks_trace (ts : List HKTASK) : List HKEvent :=
  .print .header1 :: .print .header2 :: .acquire ::
    (ts.map hkshow_row ++ [.release])

/-- Count `print` events of a trace whose lock-held state equals `want`,
starting with the lock state `held`. -/
def countPrints (held want : Bool) : List HKEvent → Nat
  | [] => 0
  | .acquire :: r => countPrints true want r
  | .release :: r => countPrints false want r
  | .print _ :: r => (if held = want then 1 else 0) + countPrints held want r

/-- Number of output writes performed while the task lock is held. -/
def printsWhileHeld (tr : List HKEvent) : Nat := countPrints false true tr

/-- Number of output writes performed while the task lock is free. -/
def printsWhileFree (tr : List HKEvent) : Nat := countPrints false false tr

/-- Callback environment in which every callback does nothing. -/
def quietEnv : Nat → Nat → Effect := fun _ _ => trivialEffect

/-- Callback environment in which callback 0 calls no API but takes seven
wall-clock seconds to return, and every other callback does nothing. -/
def envDelay7 : Nat → Nat → Effect :=
  fun c _ => if c = 0 then { acts := [], post := 7 } else trivialEffect

/-- Callback environment in which callback 0 spends seven seconds and
then registers a repeated task named "z" with frequency 0 (whose due time
therefore equals the wall clock at the moment of insertion), and every
other callback does nothing. -/
def envInsertDue : Nat → Nat → Effect :=
  fun c _ =>
    if c = 0 then { acts := [(7, HKAction.add "z" 1 0)], post := 0 }
    else trivialEffect

/-- A one-shot task named "a" due at time 10 (inserted first). -/
def oneshotDupA : HKTASK :=
  { name := "a", cb := 0, frequency := 0, type := HK_ONESHOT, nextdue := 10 }

/-- A second one-shot task also named "a", due earlier, at time 5
(duplicate one-shot names are permitted, see `hktask_oneshot`). -/
def oneshotDupB : HKTASK :=
  { name := "a", cb := 1, frequency := 0, type := HK_ONESHOT, nextdue := 5 }

/-- A repeated task named "a" with interval 10, due at time 5. -/
def repTaskA : HKTASK :=
  { name := "a", cb := 0, frequency := 10, type := HK_REPEATED, nextdue := 5 }

/-- A repeated task named "b" with interval 10, due at time 5. -/
def repTaskB : HKTASK :=
  { name := "b", cb := 1, frequency := 10, type := HK_REPEATED, nextdue := 5 }

/-- A repeated task with interval 0, due at time 5. -/
def zeroFreqTask : HKTASK :=
  { name := "a", cb := 0, frequency := 0, type := HK_REPEATED, nextdue := 5 }

/-- Scan-state invariant: the one-shot task `X` (the unique entry named
`nm`) has not executed yet. The second conjunct says no entry other than
`X` carries `X`'s callback, so an invocation of `X.cb` can only be an
execution of `X` itself. -/
def OneshotPending (nm : String) (X : HKTASK) (s : CycleState) : Prop :=
  tasksNamed nm s.tasks = [X] ∧
  (∀ e ∈ s.tasks, e.cb = X.cb → e.name = nm) ∧
  countName nm s.log = 0

/-- Scan-state invariant: the unique one-shot task named `nm` has
executed exactly once and no entry named `nm` remains in the registry. -/
def OneshotDone (nm : String) (s : CycleState) : Prop :=
  tasksNamed nm s.tasks = [] ∧ countName nm s.log = 1

/-- Ordering guard between an earlier entry `a` and a later entry `b` of
the task list: when `b` is due, `a` does not share its name (so the
first name match found by `hktask_remove` for a due entry's name is the
due entry itself). -/
def NameGuard (now : Int) (a b : HKTASK) : Prop :=
  b.nextdue ≤ now → a.name ≠ b.name

/-- Weaker ordering guard for a fixed name `m`: no entry precedes a due
entry named `m` while itself being named `m`. -/
def RmGuard (now : Int) (m : String) (a b : HKTASK) : Prop :=
  b.name = m → b.nextdue ≤ now → a.name ≠ m

/-- Some entry named `m` is due. -/
def DueNamed (now : Int) (m : String) (ts : List HKTASK) : Prop :=
  ∃ x ∈ ts, x.name = m ∧ x.nextdue ≤ now

/-- Every due repeated entry has an interval of at least one second (so
its rescheduled `nextdue = now + frequency` lies strictly in the
future). -/
def FreqGuard (now : Int) (ts : List HKTASK) : Prop :=
  ∀ e ∈ ts, e.type = HK_REPEATED → e.nextdue ≤ now → 1 ≤ e.frequency

theorem oneshotWalk_eq (task : HKTASK) (ts : List HKTASK) :
    oneshotWalk task ts = ts ++ [task] := by
  induction ts with
  | nil => rfl
  | cons p rest ih => simp [oneshotWalk, ih]

theorem addWalk_eq (name : String) (task : HKTASK) (ts : List HKTASK) :
    addWalk name task ts =
      if ts.any (fun e => decide (e.name = name)) then none
      else some (ts ++ [task]) := by
  induction ts with
  | nil => rfl
  | cons p rest ih =>
    cases rest with
    | nil =>
      by_cases h : p.name = name <;> simp [addWalk, h]
    | cons q rest2 =>
      by_cases h : p.name = name
      · simp [addWalk, h]
      · simp only [addWalk, if_neg h, ih]
        by_cases h2 : (q :: rest2).any (fun e => decide (e.name = name)) <;>
          simp [h, h2]

theorem hktask_add_dup (ts : List HKTASK) (name : String) (cb : Nat)
    (frequency now : Int) (h : ∃ e ∈ ts, e.name = name) :
    hktask_add ts name cb frequency now = (ts, 0) := by
  have hany : ts.any (fun e => decide (e.name = name)) = true := by
    rcases h with ⟨e, he, hn⟩
    simp only [List.any_eq_true]
    exact ⟨e, he, by simp [hn]⟩
  simp [hktask_add, addWalk_eq, hany]

theorem hktask_add_fresh (ts : List HKTASK) (name : String) (cb : Nat)
    (frequency now : Int) (h : ∀ e ∈ ts, e.name ≠ name) :
    hktask_add ts name cb frequency now =
      (ts ++ [{ name := name, cb := cb, frequency := frequency
                type := HK_REPEATED, nextdue := now + frequency }],
       now + frequency) := by
  have hany : ts.any (fun e => decide (e.name = name)) = false := by
    simp only [List.any_eq_false]
    intro e he
    simp [h e he]
  simp [hktask_add, addWalk_eq, hany]

theorem hktask_oneshot_eq (ts : List HKTASK) (name : String) (cb : Nat)
    (when now : Int) :
    hktask_oneshot ts name cb when now =
      (ts ++ [{ name := name, cb := cb, frequency := 0
                type := HK_ONESHOT, nextdue := now + when }],
       now + when) := by
  simp [hktask_oneshot, oneshotWalk_eq]

theorem removeWalk_none (name : String) (ts : List HKTASK)
    (h : ∀ e ∈ ts, e.name ≠ name) : removeWalk name ts = none := by
  induction ts with
  | nil => rfl
  | cons p rest ih =>
    simp only [removeWalk, if_neg (h p (List.mem_cons_self p rest))]
    rw [ih (fun e he => h e (List.mem_cons_of_mem p he))]
    rfl

theorem removeWalk_first (name : String) (pre : List HKTASK) (x : HKTASK)
    (post : List HKTASK) (hx : x.name = name) (hpre : ∀ p ∈ pre, p.name ≠ name) :
    removeWalk name (pre ++ x :: post) = some (pre ++ post) := by
  induction pre with
  | nil => simp [removeWalk, hx]
  | cons p rest ih =>
    simp only [List.cons_append, removeWalk,
      if_neg (hpre p (List.mem_cons_self p rest)), List.append_eq]
    rw [ih (fun e he => hpre e (List.mem_cons_of_mem p he))]
    rfl

/-- Inversion for a successful `removeWalk`: the removed entry is the
first name match in list order. -/
theorem removeWalk_some (name : String) (ts r : List HKTASK)
    (h : removeWalk name ts = some r) :
    ∃ pre x post, ts = pre ++ x :: post ∧ x.name = name ∧
      (∀ p ∈ pre, p.name ≠ name) ∧ r = pre ++ post := by
  induction ts generalizing r with
  | nil => simp [removeWalk] at h
  | cons p rest ih =>
    by_cases hp : p.name = name
    · refine ⟨[], p, rest, by simp, hp, by simp, ?_⟩
      simp only [removeWalk, if_pos hp, Option.some.injEq] at h
      simp [← h]
    · simp only [removeWalk, if_neg hp, Option.map_eq_some'] at h
      rcases h with ⟨r2, hr2, hr⟩
      rcases ih r2 hr2 with ⟨pre, x, post, hts, hx, hpre, hr2eq⟩
      refine ⟨p :: pre, x, post, by simp [hts], hx, ?_, by simp [hr2eq, ← hr]⟩
      intro q hq
      rcases List.mem_cons.mp hq with hq | hq
      · exact hq ▸ hp
      · exact hpre q hq

theorem hkTickLoop_eq (k : Nat) (hb : Int) : hkTickLoop k hb = hb + k := by
  induction k generalizing hb with
  | zero => simp [hkTickLoop]
  | succ n ih => simp [hkTickLoop, ih]; omega

theorem hkOuterLoop_eq (m : Nat) (hb : Int) : hkOuterLoop m hb = hb + 10 * m := by
  induction m generalizing hb with
  | zero => simp [hkOuterLoop]
  | succ n ih => simp [hkOuterLoop, hkTickLoop_eq, ih]; omega

theorem countPrints_rows (want : Bool) (ts : List HKTASK) (tail : List HKEvent) :
    countPrints true want (ts.map hkshow_row ++ tail) =
      (if true = want then ts.length else 0) + countPrints true want tail := by
  induction ts with
  | nil => simp
  | cons p rest ih =>
    cases want
    · simp [hkshow_row, countPrints, ih]
    · simp [hkshow_row, countPrints, ih]
      omega

/-- Claim C4 counterexample. The registry holds a single `HK_ONESHOT`
entry named "a" and no `HK_REPEATED` entry at all; the claim says the
duplicate check of repeated-task insertion considers only currently
Repeated entries, so `hktask_add` with name "a" should succeed. The code
(housekeeper.c lines 108-127) compares `strcmp(ptr->name, name)` on every
entry regardless of `ptr->type`, so the call fails: it returns 0 and
leaves the registry unchanged. -/
theorem hktask_add_dup_check_counterexample :
    ([({ name := "a", cb := 0, frequency := 0, type := HK_ONESHOT,
         nextdue := 100 } : HKTASK)].all
      (fun e => decide (e.type = HK_ONESHOT)) = true) ∧
    hktask_add
      [{ name := "a", cb := 0, frequency := 0, type := HK_ONESHOT,
         nextdue := 100 }] "a" 1 5 10 =
      ([{ name := "a", cb := 0, frequency := 0, type := HK_ONESHOT,
          nextdue := 100 }], 0) := by
  constructor
  · decide
  · decide

/-- Claim C4 (amended): `hktask_add` fails with the duplicate-name
sentinel (returns 0, registry unchanged) precisely when an existing entry
of ANY kind carries the requested name; when no entry of any kind carries
it, the repeated task is appended at the tail and its due time
`now + frequency` is returned. -/
theorem hktask_add_dup_check_all_kinds (ts : List HKTASK) (name : String)
    (cb : Nat) (frequency now : Int) :
    ((∃ e ∈ ts, e.name = name) → hktask_add ts name cb frequency now = (ts, 0)) ∧
    ((∀ e ∈ ts, e.name ≠ name) → hktask_add ts name cb frequency now =
      (ts ++ [{ name := name, cb := cb, frequency := frequency
                type := HK_REPEATED, nextdue := now + frequency }],
       now + frequency)) :=
  ⟨hktask_add_dup ts name cb frequency now,
   hktask_add_fresh ts name cb frequency now⟩

/-- Witness for `hktask_add_dup_check_all_kinds`: a duplicate name (of a
one-shot entry) is rejected, a fresh name is appended. -/
theorem hktask_add_dup_check_all_kinds_witness :
    hktask_add
      [{ name := "a", cb := 0, frequency := 0, type := HK_ONESHOT,
         nextdue := 100 }] "a" 1 5 10 =
      ([{ name := "a", cb := 0, frequency := 0, type := HK_ONESHOT,
          nextdue := 100 }], 0) ∧
    hktask_add
      [{ name := "a", cb := 0, frequency := 0, type := HK_ONESHOT,
         nextdue := 100 }] "b" 1 5 10 =
      ([{ name := "a", cb := 0, frequency := 0, type := HK_ONESHOT,
          nextdue := 100 },
        { name := "b", cb := 1, frequency := 5, type := HK_REPEATED,
          nextdue := 15 }], 15) :=
  ⟨(hktask_add_dup_check_all_kinds _ "a" 1 5 10).1
      ⟨_, List.mem_singleton_self _, rfl⟩,
   (hktask_add_dup_check_all_kinds _ "b" 1 5 10).2 (by decide)⟩

/-- Claim C7: one-shot insertion performs no duplicate-name check. Two
successive `hktask_oneshot` calls with the same name both succeed, each
appending its own independent entry at the tail and returning its own
`time(0) + when` due time. -/
theorem hktask_oneshot_no_dup_check (ts : List HKTASK) (name : String)
    (cb1 cb2 : Nat) (when1 when2 now1 now2 : Int) :
    hktask_oneshot ts name cb1 when1 now1 =
      (ts ++ [{ name := name, cb := cb1, frequency := 0
                type := HK_ONESHOT, nextdue := now1 + when1 }],
       now1 + when1) ∧
    hktask_oneshot
      (ts ++ [{ name := name, cb := cb1, frequency := 0
                type := HK_ONESHOT, nextdue := now1 + when1 }])
      name cb2 when2 now2 =
      (ts ++ [{ name := name, cb := cb1, frequency := 0
                type := HK_ONESHOT, nextdue := now1 + when1 },
              { name := name, cb := cb2, frequency := 0
                type := HK_ONESHOT, nextdue := now2 + when2 }],
       now2 + when2) := by
  refine ⟨hktask_oneshot_eq ts name cb1 when1 now1, ?_⟩
  rw [hktask_oneshot_eq]
  simp

/-- Claim C8: `hktask_remove` of an absent name returns `false` (C: 0)
and leaves the registry completely unchanged; when entries match, exactly
the first matching entry in list order is unlinked, every other entry is
kept in order, and `true` (C: 1) is returned. -/
theorem hktask_remove_spec (ts : List HKTASK) (name : String) :
    ((∀ e ∈ ts, e.name ≠ name) → hktask_remove ts name = (ts, false)) ∧
    (∀ pre x post, ts = pre ++ x :: post → x.name = name →
      (∀ p ∈ pre, p.name ≠ name) →
      hktask_remove ts name = (pre ++ post, true)) := by
  constructor
  · intro h
    simp [hktask_remove, removeWalk_none name ts h]
  · intro pre x post hts hx hpre
    subst hts
    simp [hktask_remove, removeWalk_first name pre x post hx hpre]

/-- Witness for `hktask_remove_spec`: removing an absent name is a no-op
returning `false`; removing a present name unlinks the first match and
returns `true`. -/
theorem hktask_remove_spec_witness :
    hktask_remove
      [{ name := "a", cb := 0, frequency := 1, type := HK_REPEATED,
         nextdue := 3 }] "b" =
      ([{ name := "a", cb := 0, frequency := 1, type := HK_REPEATED,
          nextdue := 3 }], false) ∧
    hktask_remove
      [{ name := "a", cb := 0, frequency := 1, type := HK_REPEATED,
         nextdue := 3 }] "a" = ([], true) :=
  ⟨(hktask_remove_spec _ "b").1 (by decide),
   (hktask_remove_spec _ "a").2 [] _ [] rfl rfl (by decide)⟩

/-- Claim C9 counterexample. With one task in the registry,
`hkshow_tasks` emits one output line after `spinlock_acquire` and before
`spinlock_release` (housekeeper.c lines 325-338): an I/O write to the
caller's DCB is performed while the registry lock is held, contradicting
the claim that at no step of rendering is the lock held while output is
emitted. The code also iterates the live list rather than a point-in-time
copy. -/
theorem hkshow_tasks_lock_counterexample :
    printsWhileHeld
      (hkshow_tasks_trace
        [{ name := "a", cb := 0, frequency := 5, type := HK_REPEATED,
           nextdue := 10 }]) = 1 := by
  decide

/-- Claim C9 (amended): `hkshow_tasks` writes the two header lines to the
DCB before taking the lock, then emits exactly one output line per
registry entry while the task lock is held, iterating the live list. -/
theorem hkshow_tasks_lock_profile (ts : List HKTASK) :
    printsWhileHeld (hkshow_tasks_trace ts) = ts.length ∧
    printsWhileFree (hkshow_tasks_trace ts) = 2 := by
  have h1 := countPrints_rows true ts [HKEvent.release]
  have h2 := countPrints_rows false ts [HKEvent.release]
  constructor
  · simp [printsWhileHeld, hkshow_tasks_trace, countPrints, h1]
  · simp [printsWhileFree, hkshow_tasks_trace, countPrints, h2]

/-- Claim C5 counterexample. The claim says `hkheartbeat` advances by
exactly one per ten 100ms driver ticks. Running the inner tick loop of
`hkthread` once (its full ten ticks) from the initial value advances the
heartbeat by ten, not by one: `hkheartbeat++` sits inside the
`for (i = 0; i < 10; i++)` loop (housekeeper.c line 266). -/
theorem hkheartbeat_counterexample :
    hkTickLoop 10 hkheartbeat_init = 10 ∧ (10 : Int) ≠ 1 := by
  decide

/-- Claim C5 (amended): `hkheartbeat` starts at 0 and is incremented by
exactly one per 100ms driver tick — ten per outer `hkthread` iteration
(about one second) — and is never reset or decremented, so its value
after `m` outer iterations is `10 * m` and reads are non-decreasing. -/
theorem hkheartbeat_per_tick (k m m' : Nat) (hb : Int) :
    hkTickLoop k hb = hb + k ∧
    hkOuterLoop m hkheartbeat_init = 10 * m ∧
    (m ≤ m' → hkOuterLoop m hkheartbeat_init ≤ hkOuterLoop m' hkheartbeat_init) := by
  refine ⟨hkTickLoop_eq k hb, ?_, ?_⟩
  · simp [hkOuterLoop_eq, hkheartbeat_init]
  · intro h
    simp only [hkOuterLoop_eq, hkheartbeat_init]
    omega

/-- Witness for `hkheartbeat_per_tick` at concrete tick counts. -/
theorem hkheartbeat_per_tick_witness :
    hkTickLoop 7 2 = 9 ∧
    hkOuterLoop 3 hkheartbeat_init = 30 ∧
    (3 ≤ 5 → hkOuterLoop 3 hkheartbeat_init ≤ hkOuterLoop 5 hkheartbeat_init) := by
  have h := hkheartbeat_per_tick 7 3 5 2
  exact ⟨by rw [h.1]; decide, h.2.1, h.2.2⟩

/-- Claim C10: both insertion paths append the new entry at the tail of
the task list (`hktask_add` leaves the list unchanged on failure), so
existing entries are never reordered, and the diagnostic listing renders
rows in list order, one appended row per appended task. -/
theorem insertions_append_at_tail (ts : List HKTASK) (name : String)
    (cb : Nat) (frequency when now : Int) (x : HKTASK) :
    ((hktask_add ts name cb frequency now).1 = ts ∨
      (hktask_add ts name cb frequency now).1 =
        ts ++ [{ name := name, cb := cb, frequency := frequency
                 type := HK_REPEATED, nextdue := now + frequency }]) ∧
    (hktask_oneshot ts name cb when now).1 =
      ts ++ [{ name := name, cb := cb, frequency := 0
               type := HK_ONESHOT, nextdue := now + when }] ∧
    (ts ++ [x]).map hkshow_row = ts.map hkshow_row ++ [hkshow_row x] := by
  refine ⟨?_, ?_, by simp⟩
  · by_cases h : ts.any (fun e => decide (e.name = name))
    · left
      simp [hktask_add, addWalk_eq, h]
    · right
      simp [hktask_add, addWalk_eq, h]
  · rw [hktask_oneshot_eq]

theorem applyActs_clock_mono (acts : List (Nat × HKAction)) (ts : List HKTASK)
    (t : Int) : t ≤ (applyActs acts ts t).2 := by
  induction acts generalizing ts t with
  | nil => simp [applyActs]
  | cons p rest ih =>
    obtain ⟨d, a⟩ := p
    simp only [applyActs]
    have h := ih (applyAction a ts (t + (d : Int))) (t + (d : Int))
    omega

theorem applyEffect_clock_mono (eff : Effect) (ts : List HKTASK) (t : Int) :
    t ≤ (applyEffect eff ts t).2 := by
  simp only [applyEffect]
  have h := applyActs_clock_mono eff.acts ts t
  omega

/-- Inversion of a productive `cycleStep`: the clock never goes backwards
and the appended invocation record carries `wrote = now + frequency` (the
value written at housekeeper.c line 275, computed from the scan's single
`time(0)` reading) and an invocation time no earlier than `now`. -/
theorem cycleStep_log_inv (env : Nat → Nat → Effect) (now : Int)
    (s s2 : CycleState) (h : cycleStep env now s = some s2)
    (hclock : now ≤ s.clock) :
    now ≤ s2.clock ∧
      ∃ r, s2.log = s.log ++ [r] ∧ r.wrote = now + r.frequency ∧
        now ≤ r.execTime := by
  unfold cycleStep at h
  cases hfd : findDue now s.tasks with
  | none => rw [hfd] at h; exact absurd h (by simp)
  | some p =>
    obtain ⟨ts1, e⟩ := p
    rw [hfd] at h
    simp only [Option.some.injEq] at h
    subst h
    refine ⟨?_, ⟨_, rfl, rfl, hclock⟩⟩
    have h2 := applyEffect_clock_mono (env e.cb s.log.length) ts1 s.clock
    simpa using le_trans hclock h2

theorem cycleIter_log_inv (env : Nat → Nat → Effect) (now : Int) (k : Nat)
    (s0 : CycleState) (hclock : now ≤ s0.clock)
    (hlog : ∀ r ∈ s0.log, r.wrote = now + r.frequency ∧ now ≤ r.execTime) :
    ∀ r ∈ (cycleIter env now k s0).log,
      r.wrote = now + r.frequency ∧ now ≤ r.execTime := by
  induction k generalizing s0 with
  | zero => simpa [cycleIter] using hlog
  | succ n ih =>
    rw [cycleIter]
    cases hstep : cycleStep env now s0 with
    | none => simpa using hlog
    | some s1 =>
      obtain ⟨hc1, r0, hl1, hw, he⟩ := cycleStep_log_inv env now s0 s1 hstep hclock
      refine ih s1 hc1 ?_
      intro r hr
      rw [hl1] at hr
      rcases List.mem_append.mp hr with hr | hr
      · exact hlog r hr
      · rcases List.mem_singleton.mp hr with rfl
        exact ⟨hw, he⟩

/-- Claim C1 counterexample. The registry holds two one-shot tasks that
share the name "a" (permitted, since `hktask_oneshot` makes no duplicate
check): `oneshotDupA` due at 10 and `oneshotDupB` due at 5; every
callback performs no API calls at all. At `now = 5` the scan executes
`oneshotDupB`, then `hktask_remove "a"` (housekeeper.c line 287) unlinks
the FIRST "a" entry, which is `oneshotDupA`; `oneshotDupB` remains with
`nextdue = 5 + 0 = 5`, is still due, and its callback is executed a
second time before it is finally removed. Its callback ran twice even
though it inserted nothing, refuting exactly-once execution. -/
theorem oneshot_dup_double_execution :
    runCycle quietEnv 5 3 { tasks := [oneshotDupA, oneshotDupB], clock := 5, log := [] } =
      some { tasks := [], clock := 5,
             log := [{ name := "a", cb := 1, type := HK_ONESHOT, frequency := 0
                       execTime := 5, wrote := 5 },
                     { name := "a", cb := 1, type := HK_ONESHOT, frequency := 0
                       execTime := 5, wrote := 5 }] } ∧
    countName "a"
      [{ name := "a", cb := 1, type := HK_ONESHOT, frequency := 0
         execTime := 5, wrote := 5 },
       { name := "a", cb := 1, type := HK_ONESHOT, frequency := 0
         execTime := 5, wrote := 5 }] = 2 :=
  ⟨rfl, rfl⟩

/-- Claim C2 counterexample. Two repeated tasks with interval 10 are both
due at `now = 5`. The first task's callback takes seven wall-clock
seconds, so the second task's callback is invoked at wall-clock time
`T' = 12`; yet the `nextdue` written for it is `now + interval = 15`,
taken from the scan's single `time(0)` reading at housekeeper.c line 268,
not `T' + interval = 22`. The claim's "not from an earlier clock
reading" is refuted. -/
theorem repeated_reschedule_counterexample :
    runCycle envDelay7 5 3 { tasks := [repTaskA, repTaskB], clock := 5, log := [] } =
      some { tasks := [{ repTaskA with nextdue := 15 }, { repTaskB with nextdue := 15 }],
             clock := 12,
             log := [{ name := "a", cb := 0, type := HK_REPEATED, frequency := 10
                       execTime := 5, wrote := 15 },
                     { name := "b", cb := 1, type := HK_REPEATED, frequency := 10
                       execTime := 12, wrote := 15 }] } ∧
    (12 : Int) + 10 ≠ 15 :=
  ⟨rfl, by decide⟩

theorem zeroFreq_diverges_aux (fuel : Nat) :
    ∀ log, runCycle quietEnv 5 fuel { tasks := [zeroFreqTask], clock := 5, log := log } = none := by
  induction fuel with
  | zero => intro log; rfl
  | succ n ih =>
    intro log
    have hstep : cycleStep quietEnv 5 { tasks := [zeroFreqTask], clock := 5, log := log } =
        some { tasks := [zeroFreqTask], clock := 5,
               log := log ++ [{ name := "a", cb := 0, type := HK_REPEATED, frequency := 0
                                execTime := 5, wrote := 5 }] } := rfl
    rw [runCycle, hstep]
    exact ih _

/-- Claim C3 counterexample. A repeated task with interval 0 that is due
makes the scan of a single cycle loop forever: after execution its
`nextdue` is set to `now + 0 = now` (housekeeper.c line 275), which still
satisfies `nextdue <= now`, so the restarted scan finds it due again, for
any number of iterations. The claim asserted termination for every
registry "including interval 0". -/
theorem zero_interval_scan_diverges :
    runDiverges quietEnv 5 { tasks := [zeroFreqTask], clock := 5, log := [] } ∧
    zeroFreqTask.frequency = 0 :=
  ⟨fun fuel => zeroFreq_diverges_aux fuel [], rfl⟩

/-- Claim C6 counterexample. A repeated task's callback spends seven
seconds, then (at wall-clock time 12) registers the repeated task "z"
with frequency 0, whose `nextdue = 12` equals the wall clock at the
moment of insertion — the new task is due the moment it is inserted. But
the scan compares `nextdue <= now` against the cycle's single `time(0)`
reading `now = 5` (housekeeper.c lines 268, 273), so `z` is not executed:
the cycle ends with "z" still pending and no "z" invocation logged. -/
theorem inserted_due_task_skipped :
    runCycle envInsertDue 5 2 { tasks := [repTaskA], clock := 5, log := [] } =
      some { tasks := [{ repTaskA with nextdue := 15 },
                       { name := "z", cb := 1, frequency := 0, type := HK_REPEATED
                         nextdue := 12 }],
             clock := 12,
             log := [{ name := "a", cb := 0, type := HK_REPEATED, frequency := 10
                       execTime := 5, wrote := 15 }] } ∧
    (12 : Int) ≤ 12 ∧
    countName "z"
      [{ name := "a", cb := 0, type := HK_REPEATED, frequency := 10
         execTime := 5, wrote := 15 }] = 0 :=
  ⟨rfl, by decide, rfl⟩

/-- Claim C2 (amended): for every repeated task executed by the scan, the
`nextdue` value written for it equals `now + interval` where `now` is the
cycle's single wall-clock reading taken at the start of the scan — a
reading at or before the actual invocation time (`now ≤ execTime`), so a
delayed execution is rescheduled from the scan-start reading, not from
the missed nominal due time and not from the actual execution time. -/
theorem repeated_reschedule_from_scan_clock (env : Nat → Nat → Effect)
    (now : Int) (k : Nat) (s0 : CycleState) (hclock : now ≤ s0.clock)
    (hlog : s0.log = []) :
    ∀ r ∈ (cycleIter env now k s0).log,
      r.wrote = now + r.frequency ∧ now ≤ r.execTime := by
  refine cycleIter_log_inv env now k s0 hclock ?_
  rw [hlog]
  intro r hr
  exact absurd hr (by simp)

/-- Witness for `repeated_reschedule_from_scan_clock` on the concrete
two-task delayed run: the "b" record, invoked at time 12, was written
`nextdue = 5 + 10`. -/
theorem repeated_reschedule_from_scan_clock_witness :
    ({ name := "b", cb := 1, type := HK_REPEATED, frequency := 10
       execTime := 12, wrote := 15 } : ExecRecord).wrote = 5 + 10 ∧
    (5 : Int) ≤ 12 :=
  repeated_reschedule_from_scan_clock envDelay7 5 2
    { tasks := [repTaskA, repTaskB], clock := 5, log := [] }
    (by decide) rfl
    { name := "b", cb := 1, type := HK_REPEATED, frequency := 10
      execTime := 12, wrote := 15 }
    (by rw [show cycleIter envDelay7 5 2
        { tasks := [repTaskA, repTaskB], clock := 5, log := [] } =
        { tasks := [{ repTaskA with nextdue := 15 }, { repTaskB with nextdue := 15 }],
          clock := 12,
          log := [{ name := "a", cb := 0, type := HK_REPEATED, frequency := 10
                    execTime := 5, wrote := 15 },
                  { name := "b", cb := 1, type := HK_REPEATED, frequency := 10
                    execTime := 12, wrote := 15 }] } from rfl]
        simp)

theorem countName_append (n : String) (l : List ExecRecord) (r : ExecRecord) :
    countName n (l ++ [r]) = countName n l + (if r.name = n then 1 else 0) := by
  by_cases h : r.name = n <;> simp [countName, List.filter_append, h]

theorem tasksNamed_append (n : String) (a b : List HKTASK) :
    tasksNamed n (a ++ b) = tasksNamed n a ++ tasksNamed n b := by
  simp [tasksNamed, List.filter_append]

theorem tasksNamed_cons_ne (n : String) (p : HKTASK) (ts : List HKTASK)
    (h : p.name ≠ n) : tasksNamed n (p :: ts) = tasksNamed n ts := by
  simp [tasksNamed, h]

theorem tasksNamed_cons_eq (n : String) (p : HKTASK) (ts : List HKTASK)
    (h : p.name = n) : tasksNamed n (p :: ts) = p :: tasksNamed n ts := by
  simp [tasksNamed, h]

theorem mem_of_mem_tasksNamed (n : String) (e : HKTASK) (ts : List HKTASK)
    (h : e ∈ tasksNamed n ts) : e ∈ ts ∧ e.name = n := by
  have h2 := List.mem_filter.mp h
  exact ⟨h2.1, by simpa using h2.2⟩

theorem mem_tasksNamed_of (n : String) (e : HKTASK) (ts : List HKTASK)
    (he : e ∈ ts) (hn : e.name = n) : e ∈ tasksNamed n ts :=
  List.mem_filter.mpr ⟨he, by simpa using hn⟩

theorem mem_named_singleton (n : String) (e X : HKTASK) (ts : List HKTASK)
    (he : e ∈ ts) (hn : e.name = n) (hX : tasksNamed n ts = [X]) : e = X := by
  have h := mem_tasksNamed_of n e ts he hn
  rw [hX] at h
  exact List.mem_singleton.mp h

theorem singleton_append_split {α : Type} (a b : List α) (x y : α)
    (h : a ++ x :: b = [y]) : a = [] ∧ x = y ∧ b = [] := by
  cases a with
  | nil => simpa using h
  | cons hd tl =>
    simp only [List.cons_append, List.cons.injEq] at h
    exact absurd h.2 (by simp)

theorem removeWalk_eq_none (name : String) (ts : List HKTASK) :
    removeWalk name ts = none ↔ ∀ e ∈ ts, e.name ≠ name := by
  constructor
  · intro h e he hn
    induction ts with
    | nil => simp at he
    | cons p rest ih =>
      by_cases hp : p.name = name
      · simp [removeWalk, hp] at h
      · simp only [removeWalk, if_neg hp, Option.map_eq_none'] at h
        rcases List.mem_cons.mp he with rfl | he2
        · exact hp hn
        · exact ih h he2
  · exact removeWalk_none name ts

theorem hktask_remove_sublist (ts : List HKTASK) (m : String) :
    ((hktask_remove ts m).1).Sublist ts := by
  unfold hktask_remove
  cases hrw : removeWalk m ts with
  | none => simp
  | some r =>
    obtain ⟨pre, x, post, hts, hx, hpre, hr⟩ := removeWalk_some m ts r hrw
    subst hts
    subst hr
    exact List.Sublist.append (List.Sublist.refl pre) (List.sublist_cons_self x post)

theorem remove_tasksNamed_ne (ts : List HKTASK) (m n : String) (h : m ≠ n) :
    tasksNamed n (hktask_remove ts m).1 = tasksNamed n ts := by
  unfold hktask_remove
  cases hrw : removeWalk m ts with
  | none => simp
  | some r =>
    obtain ⟨pre, x, post, hts, hx, hpre, hr⟩ := removeWalk_some m ts r hrw
    subst hts
    subst hr
    have hxn : x.name ≠ n := by rw [hx]; exact h
    simp [tasksNamed_append, tasksNamed_cons_ne n x post hxn]

theorem remove_tasksNamed_eq (ts : List HKTASK) (n : String) :
    tasksNamed n (hktask_remove ts n).1 = (tasksNamed n ts).tail := by
  unfold hktask_remove
  cases hrw : removeWalk n ts with
  | none =>
    have h := (removeWalk_eq_none n ts).mp hrw
    have h2 : tasksNamed n ts = [] := by
      simp only [tasksNamed, List.filter_eq_nil_iff]
      intro e he
      simp [h e he]
    simp [h2]
  | some r =>
    obtain ⟨pre, x, post, hts, hx, hpre, hr⟩ := removeWalk_some n ts r hrw
    subst hts
    subst hr
    have hpre2 : tasksNamed n pre = [] := by
      simp only [tasksNamed, List.filter_eq_nil_iff]
      intro e he
      simp [hpre e he]
    simp [tasksNamed_append, tasksNamed_cons_eq n x post hx, hpre2]

theorem findDue_eq_none (now : Int) (ts : List HKTASK) :
    findDue now ts = none ↔ ∀ e ∈ ts, ¬ e.nextdue ≤ now := by
  induction ts with
  | nil => simp [findDue]
  | cons p rest ih =>
    by_cases h : p.nextdue ≤ now
    · simp [findDue, h]
    · simp only [findDue, if_neg h, Option.map_eq_none', ih,
        List.forall_mem_cons]
      exact ⟨fun h2 => ⟨h, h2⟩, fun h2 => h2.2⟩

/-- Inversion of a successful `findDue`: the found entry is the first due
entry in list order, and only its `nextdue` field is overwritten. -/
theorem findDue_some (now : Int) (ts : List HKTASK) (p : List HKTASK × HKTASK)
    (h : findDue now ts = some p) :
    ∃ pre e post, ts = pre ++ e :: post ∧ (∀ q ∈ pre, ¬ q.nextdue ≤ now) ∧
      e.nextdue ≤ now ∧
      p = (pre ++ { e with nextdue := now + e.frequency } :: post, e) := by
  induction ts generalizing p with
  | nil => simp [findDue] at h
  | cons q rest ih =>
    by_cases hq : q.nextdue ≤ now
    · simp only [findDue, if_pos hq, Option.some.injEq] at h
      exact ⟨[], q, rest, by simp, by simp, hq, h.symm⟩
    · simp only [findDue, if_neg hq, Option.map_eq_some'] at h
      rcases h with ⟨x, hx, hp⟩
      rcases ih x hx with ⟨pre, e, post, hts, hpre, he, hxeq⟩
      refine ⟨q :: pre, e, post, by simp [hts], ?_, he, ?_⟩
      · intro r hr
        rcases List.mem_cons.mp hr with rfl | hr
        · exact hq
        · exact hpre r hr
      · subst hxeq
        simp [← hp]

theorem cycleStep_eq_none (env : Nat → Nat → Effect) (now : Int)
    (s : CycleState) :
    cycleStep env now s = none ↔ findDue now s.tasks = none := by
  unfold cycleStep
  cases findDue now s.tasks with
  | none => simp
  | some p => simp

/-- Full inversion of a productive `cycleStep`, naming each component of
the produced state. -/
theorem cycleStep_some (env : Nat → Nat → Effect) (now : Int)
    (s s1 : CycleState) (h : cycleStep env now s = some s1) :
    ∃ ts1 e, findDue now s.tasks = some (ts1, e) ∧
      s1 = { tasks :=
               (if e.type = HK_ONESHOT then
                 (hktask_remove (applyEffect (env e.cb s.log.length) ts1 s.clock).1 e.name).1
               else (applyEffect (env e.cb s.log.length) ts1 s.clock).1),
             clock := (applyEffect (env e.cb s.log.length) ts1 s.clock).2,
             log := s.log ++ [{ name := e.name, cb := e.cb, type := e.type
                                frequency := e.frequency, execTime := s.clock
                                wrote := now + e.frequency }] } := by
  unfold cycleStep at h
  cases hfd : findDue now s.tasks with
  | none => rw [hfd] at h; exact absurd h (by simp)
  | some p =>
    obtain ⟨ts1, e⟩ := p
    rw [hfd] at h
    simp only [Option.some.injEq] at h
    exact ⟨ts1, e, rfl, h.symm⟩

theorem hktask_add_fst (ts : List HKTASK) (n : String) (c : Nat) (f t : Int) :
    (hktask_add ts n c f t).1 = ts ∨
    (hktask_add ts n c f t).1 =
      ts ++ [{ name := n, cb := c, frequency := f
               type := HK_REPEATED, nextdue := t + f }] := by
  by_cases h : ts.any (fun e => decide (e.name = n)) <;>
    simp [hktask_add, addWalk_eq, h]

theorem applyAction_due_named (a : HKAction) (ts : List HKTASK) (t z now : _)
    (ha : actRemovesName z a = false)
    (h : ∃ e ∈ ts, e.name = z ∧ e.nextdue ≤ now) :
    ∃ e ∈ applyAction a ts t, e.name = z ∧ e.nextdue ≤ now := by
  obtain ⟨e, he, hz, hd⟩ := h
  cases a with
  | add n c f =>
    rcases hktask_add_fst ts n c f t with h1 | h1 <;>
      exact ⟨e, by simp [applyAction, h1, he], hz, hd⟩
  | oneshot n c w =>
    refine ⟨e, ?_, hz, hd⟩
    simp only [applyAction, hktask_oneshot_eq]
    exact List.mem_append_left _ he
  | remove m =>
    have hm : m ≠ z := by simpa [actRemovesName] using ha
    have hpres := remove_tasksNamed_ne ts m z hm
    have he2 := mem_tasksNamed_of z e ts he hz
    rw [← hpres] at he2
    obtain ⟨he3, _⟩ := mem_of_mem_tasksNamed z e _ he2
    exact ⟨e, he3, hz, hd⟩

theorem applyActs_due_named (acts : List (Nat × HKAction)) (ts : List HKTASK)
    (t z now : _) (ha : ∀ p ∈ acts, actRemovesName z p.2 = false)
    (h : ∃ e ∈ ts, e.name = z ∧ e.nextdue ≤ now) :
    ∃ e ∈ (applyActs acts ts t).1, e.name = z ∧ e.nextdue ≤ now := by
  induction acts generalizing ts t with
  | nil => simpa [applyActs] using h
  | cons p rest ih =>
    obtain ⟨d, a⟩ := p
    simp only [applyActs]
    refine ih _ _ (fun q hq => ha q (List.mem_cons_of_mem _ hq)) ?_
    exact applyAction_due_named a ts _ z now
      (ha (d, a) (List.mem_cons_self _ _)) h

theorem remove_due_named (ts : List HKTASK) (m z : String) (now : Int)
    (hm : m ≠ z) (h : ∃ e ∈ ts, e.name = z ∧ e.nextdue ≤ now) :
    ∃ e ∈ (hktask_remove ts m).1, e.name = z ∧ e.nextdue ≤ now := by
  obtain ⟨e, he, hz, hd⟩ := h
  have hpres := remove_tasksNamed_ne ts m z hm
  have he2 := mem_tasksNamed_of z e ts he hz
  rw [← hpres] at he2
  obtain ⟨he3, _⟩ := mem_of_mem_tasksNamed z e _ he2
  exact ⟨e, he3, hz, hd⟩

theorem cycleStep_due_named (env : Nat → Nat → Effect) (now : Int)
    (z : String) (s s1 : CycleState)
    (henv : ∀ c k, effRemovesName z (env c k) = false)
    (h : cycleStep env now s = some s1)
    (hdue : ∃ e ∈ s.tasks, e.name = z ∧ e.nextdue ≤ now) :
    countName z s1.log = countName z s.log + 1 ∨
    (countName z s1.log = countName z s.log ∧
      ∃ e ∈ s1.tasks, e.name = z ∧ e.nextdue ≤ now) := by
  obtain ⟨ts1, e, hfd, rfl⟩ := cycleStep_some env now s s1 h
  by_cases hez : e.name = z
  · left
    simp [countName_append, hez]
  · right
    refine ⟨by simp [countName_append, hez], ?_⟩
    obtain ⟨pre, e0, post, hts, hpre, hdue0, heq⟩ := findDue_some now s.tasks _ hfd
    have hts1 : ts1 = pre ++ { e0 with nextdue := now + e0.frequency } :: post :=
      congrArg Prod.fst heq
    have hee0 : e = e0 := congrArg Prod.snd heq
    subst hee0
    -- The due witness named z survives the nextdue update of e (named ≠ z).
    obtain ⟨x, hx, hxz, hxd⟩ := hdue
    rw [hts] at hx
    have hx1 : x ∈ ts1 := by
      rw [hts1]
      rcases List.mem_append.mp hx with hx | hx
      · exact List.mem_append_left _ hx
      · rcases List.mem_cons.mp hx with rfl | hx
        · exact absurd hxz hez
        · exact List.mem_append_right _ (List.mem_cons_of_mem _ hx)
    -- It survives the callback's API calls,
    have hacts : ∀ p ∈ (env e.cb s.log.length).acts, actRemovesName z p.2 = false := by
      have h2 := henv e.cb s.log.length
      simp only [effRemovesName, List.any_eq_false, Bool.not_eq_true] at h2
      exact h2
    have heff : ∃ e2 ∈ (applyEffect (env e.cb s.log.length) ts1 s.clock).1,
        e2.name = z ∧ e2.nextdue ≤ now :=
      applyActs_due_named _ ts1 s.clock z now hacts ⟨x, hx1, hxz, hxd⟩
    -- and the post-execution removal of e's own (different) name.
    by_cases hty : e.type = HK_ONESHOT
    · simpa [hty] using remove_due_named _ e.name z now hez heff
    · simpa [hty] using heff

theorem runCycle_count_mono (env : Nat → Nat → Effect) (now : Int)
    (z : String) (fuel : Nat) (s sf : CycleState)
    (h : runCycle env now fuel s = some sf) :
    countName z s.log ≤ countName z sf.log := by
  induction fuel generalizing s with
  | zero => simp [runCycle] at h
  | succ n ih =>
    rw [runCycle] at h
    cases hstep : cycleStep env now s with
    | none =>
      rw [hstep] at h
      simp only [Option.some.injEq] at h
      subst h
      exact le_refl _
    | some s1 =>
      rw [hstep] at h
      obtain ⟨ts1, e, hfd, rfl⟩ := cycleStep_some env now s s1 hstep
      have h2 := ih _ h
      by_cases hez : e.name = z <;>
        simp only [countName_append, hez, if_pos, if_neg] at h2 <;> omega

/-- Claim C6 (amended): a task named `z` that is present and due relative
to the scan's wall-clock reading `now` (`nextdue ≤ now`, `now` being the
single `time(0)` value read at the start of the cycle — NOT merely due
relative to the later insertion moment), and whose name no callback
removes, is executed before the scan of the cycle ends: a completed scan
has logged at least one more invocation of an entry named `z` than had
been logged at the start state. The start state may be any mid-cycle
state, in particular the state right after a callback inserted `z`. -/
theorem inserted_due_task_runs_same_cycle (env : Nat → Nat → Effect)
    (now : Int) (fuel : Nat) (s0 sf : CycleState) (z : String)
    (hterm : runCycle env now fuel s0 = some sf)
    (henv : ∀ c k, effRemovesName z (env c k) = false)
    (hdue : ∃ e ∈ s0.tasks, e.name = z ∧ e.nextdue ≤ now) :
    countName z s0.log + 1 ≤ countName z sf.log := by
  induction fuel generalizing s0 with
  | zero => simp [runCycle] at hterm
  | succ n ih =>
    rw [runCycle] at hterm
    cases hstep : cycleStep env now s0 with
    | none =>
      rw [cycleStep_eq_none, findDue_eq_none] at hstep
      obtain ⟨e, he, hz, hd⟩ := hdue
      exact absurd hd (hstep e he)
    | some s1 =>
      rw [hstep] at hterm
      rcases cycleStep_due_named env now z s0 s1 henv hstep hdue with h1 | ⟨h1, h2⟩
      · have hmono := runCycle_count_mono env now z n s1 sf hterm
        omega
      · have h3 := ih s1 hterm h2
        omega

/-- Witness for `inserted_due_task_runs_same_cycle`: a single repeated
task named "z", due at 2 with the scan reading `now = 3`, is logged once
by the completed scan. -/
theorem inserted_due_task_runs_same_cycle_witness :
    countName "z"
      (({ tasks := [{ name := "z", cb := 0, frequency := 5, type := HK_REPEATED
                      nextdue := 2 }], clock := 3, log := [] } : CycleState)).log + 1 ≤
    countName "z"
      [{ name := "z", cb := 0, type := HK_REPEATED, frequency := 5
         execTime := 3, wrote := 8 }] :=
  inserted_due_task_runs_same_cycle quietEnv 3 2
    { tasks := [{ name := "z", cb := 0, frequency := 5, type := HK_REPEATED
                  nextdue := 2 }], clock := 3, log := [] }
    { tasks := [{ name := "z", cb := 0, frequency := 5, type := HK_REPEATED
                  nextdue := 8 }], clock := 3,
      log := [{ name := "z", cb := 0, type := HK_REPEATED, frequency := 5
                execTime := 3, wrote := 8 }] }
    "z" rfl (fun c k => rfl)
    ⟨{ name := "z", cb := 0, frequency := 5, type := HK_REPEATED, nextdue := 2 },
     List.mem_singleton_self _, rfl, by decide⟩

theorem applyAction_tasksNamed_eq (a : HKAction) (ts : List HKTASK)
    (t : Int) (n : String) (hi : actInsertsName n a = false)
    (hr : actRemovesName n a = false) :
    tasksNamed n (applyAction a ts t) = tasksNamed n ts := by
  cases a with
  | add m c f =>
    have hm : m ≠ n := by simpa [actInsertsName] using hi
    rcases hktask_add_fst ts m c f t with h1 | h1 <;>
      simp [applyAction, h1, tasksNamed_append, tasksNamed, hm]
  | oneshot m c w =>
    have hm : m ≠ n := by simpa [actInsertsName] using hi
    simp [applyAction, hktask_oneshot_eq, tasksNamed_append, tasksNamed, hm]
  | remove m =>
    have hm : m ≠ n := by simpa [actRemovesName] using hr
    exact remove_tasksNamed_ne ts m n hm

theorem applyAction_tasksNamed_sub (a : HKAction) (ts : List HKTASK)
    (t : Int) (n : String) (hi : actInsertsName n a = false) :
    (tasksNamed n (applyAction a ts t)).Sublist (tasksNamed n ts) := by
  cases a with
  | add m c f =>
    rw [applyAction_tasksNamed_eq _ ts t n hi rfl]
  | oneshot m c w =>
    rw [applyAction_tasksNamed_eq _ ts t n hi rfl]
  | remove m =>
    by_cases hm : m = n
    · subst hm
      rw [show applyAction (HKAction.remove m) ts t = (hktask_remove ts m).1 from rfl,
        remove_tasksNamed_eq ts m]
      exact List.tail_sublist _
    · rw [applyAction_tasksNamed_eq _ ts t n hi (by simpa [actRemovesName] using hm)]

theorem applyActs_tasksNamed_eq (acts : List (Nat × HKAction))
    (ts : List HKTASK) (t : Int) (n : String)
    (hi : ∀ p ∈ acts, actInsertsName n p.2 = false)
    (hr : ∀ p ∈ acts, actRemovesName n p.2 = false) :
    tasksNamed n (applyActs acts ts t).1 = tasksNamed n ts := by
  induction acts generalizing ts t with
  | nil => simp [applyActs]
  | cons p rest ih =>
    obtain ⟨d, a⟩ := p
    simp only [applyActs]
    rw [ih _ _ (fun q hq => hi q (List.mem_cons_of_mem _ hq))
        (fun q hq => hr q (List.mem_cons_of_mem _ hq)),
      applyAction_tasksNamed_eq a ts _ n (hi (d, a) (List.mem_cons_self _ _))
        (hr (d, a) (List.mem_cons_self _ _))]

theorem applyActs_tasksNamed_sub (acts : List (Nat × HKAction))
    (ts : List HKTASK) (t : Int) (n : String)
    (hi : ∀ p ∈ acts, actInsertsName n p.2 = false) :
    (tasksNamed n (applyActs acts ts t).1).Sublist (tasksNamed n ts) := by
  induction acts generalizing ts t with
  | nil => simp [applyActs]
  | cons p rest ih =>
    obtain ⟨d, a⟩ := p
    simp only [applyActs]
    exact (ih _ _ (fun q hq => hi q (List.mem_cons_of_mem _ hq))).trans
      (applyAction_tasksNamed_sub a ts _ n (hi (d, a) (List.mem_cons_self _ _)))

theorem applyAction_cbOK (a : HKAction) (ts : List HKTASK) (t : Int)
    (c : Nat) (nm : String) (hc : actInsertsCb c a = false)
    (h : ∀ e ∈ ts, e.cb = c → e.name = nm) :
    ∀ e ∈ applyAction a ts t, e.cb = c → e.name = nm := by
  cases a with
  | add m c2 f =>
    have hc2 : c2 ≠ c := by simpa [actInsertsCb] using hc
    intro e he
    rcases hktask_add_fst ts m c2 f t with h1 | h1 <;> rw [show applyAction (HKAction.add m c2 f) ts t = (hktask_add ts m c2 f t).1 from rfl, h1] at he
    · exact h e he
    · rcases List.mem_append.mp he with he | he
      · exact h e he
      · rcases List.mem_singleton.mp he with rfl
        intro hcb
        exact absurd hcb hc2
  | oneshot m c2 w =>
    have hc2 : c2 ≠ c := by simpa [actInsertsCb] using hc
    intro e he
    rw [show applyAction (HKAction.oneshot m c2 w) ts t = (hktask_oneshot ts m c2 w t).1 from rfl,
      hktask_oneshot_eq] at he
    rcases List.mem_append.mp he with he | he
    · exact h e he
    · rcases List.mem_singleton.mp he with rfl
      intro hcb
      exact absurd hcb hc2
  | remove m =>
    intro e he
    exact h e ((hktask_remove_sublist ts m).subset he)

theorem applyActs_cbOK (acts : List (Nat × HKAction)) (ts : List HKTASK)
    (t : Int) (c : Nat) (nm : String)
    (hc : ∀ p ∈ acts, actInsertsCb c p.2 = false)
    (h : ∀ e ∈ ts, e.cb = c → e.name = nm) :
    ∀ e ∈ (applyActs acts ts t).1, e.cb = c → e.name = nm := by
  induction acts generalizing ts t with
  | nil => simpa [applyActs] using h
  | cons p rest ih =>
    obtain ⟨d, a⟩ := p
    simp only [applyActs]
    exact ih _ _ (fun q hq => hc q (List.mem_cons_of_mem _ hq))
      (applyAction_cbOK a ts _ c nm (hc (d, a) (List.mem_cons_self _ _)) h)

theorem oneshot_step_pending (env : Nat → Nat → Effect) (now : Int)
    (nm : String) (X : HKTASK) (hXty : X.type = HK_ONESHOT)
    (hIns : ∀ c k, effInsertsName nm (env c k) = false)
    (hRem : ∀ c k, c ≠ X.cb → effRemovesName nm (env c k) = false)
    (hCb : ∀ c k, effInsertsCb X.cb (env c k) = false)
    (s s1 : CycleState) (hA : OneshotPending nm X s)
    (h : cycleStep env now s = some s1) :
    OneshotPending nm X s1 ∨ OneshotDone nm s1 := by
  obtain ⟨hA1, hA2, hA3⟩ := hA
  obtain ⟨ts1, e, hfd, rfl⟩ := cycleStep_some env now s s1 h
  obtain ⟨pre, e0, post, hts, hpre, hdue0, heq⟩ := findDue_some now s.tasks _ hfd
  have hts1 : ts1 = pre ++ { e0 with nextdue := now + e0.frequency } :: post :=
    congrArg Prod.fst heq
  have hee0 : e = e0 := congrArg Prod.snd heq
  subst hee0
  have heIns : ∀ p ∈ (env e.cb s.log.length).acts, actInsertsName nm p.2 = false := by
    have h2 := hIns e.cb s.log.length
    simp only [effInsertsName, List.any_eq_false, Bool.not_eq_true] at h2
    exact h2
  have heCb : ∀ p ∈ (env e.cb s.log.length).acts, actInsertsCb X.cb p.2 = false := by
    have h2 := hCb e.cb s.log.length
    simp only [effInsertsCb, List.any_eq_false, Bool.not_eq_true] at h2
    exact h2
  by_cases hen : e.name = nm
  · -- The executed entry is X itself: it runs, then its name is removed.
    have heX : e = X :=
      mem_named_singleton nm e X s.tasks
        (by rw [hts]; exact List.mem_append_right _ (List.mem_cons_self _ _)) hen hA1
    right
    rw [hts, tasksNamed_append, tasksNamed_cons_eq nm e post hen] at hA1
    obtain ⟨hpre0, hxX, hpost0⟩ := singleton_append_split _ _ _ _ hA1
    have hn1 : tasksNamed nm ts1 = [{ e with nextdue := now + e.frequency }] := by
      rw [hts1, tasksNamed_append, tasksNamed_cons_eq nm _ post (by simpa using hen),
        hpre0, hpost0]
      rfl
    have hsub := applyActs_tasksNamed_sub (env e.cb s.log.length).acts ts1 s.clock nm heIns
    rw [hn1] at hsub
    have hsub2 : tasksNamed nm (applyEffect (env e.cb s.log.length) ts1 s.clock).1 = [] ∨
        tasksNamed nm (applyEffect (env e.cb s.log.length) ts1 s.clock).1 =
          [{ e with nextdue := now + e.frequency }] :=
      List.sublist_singleton.mp hsub
    constructor
    · -- No entry named nm survives the post-execution removal.
      have hty : e.type = HK_ONESHOT := by rw [heX]; exact hXty
      rw [if_pos hty, hen, remove_tasksNamed_eq]
      rcases hsub2 with h2 | h2 <;> rw [h2] <;> rfl
    · simp [countName_append, hen, hA3]
  · -- Some other entry executed; X is untouched.
    left
    have hemem : e ∈ s.tasks := by
      rw [hts]; exact List.mem_append_right _ (List.mem_cons_self _ _)
    have hcb_ne : e.cb ≠ X.cb := fun hcbeq => hen (hA2 e hemem hcbeq)
    have heRem : ∀ p ∈ (env e.cb s.log.length).acts, actRemovesName nm p.2 = false := by
      have h2 := hRem e.cb s.log.length hcb_ne
      simp only [effRemovesName, List.any_eq_false, Bool.not_eq_true] at h2
      exact h2
    have hn1 : tasksNamed nm ts1 = [X] := by
      rw [hts1, tasksNamed_append, tasksNamed_cons_ne nm _ post (by simpa using hen)]
      rw [hts, tasksNamed_append, tasksNamed_cons_ne nm e post hen] at hA1
      exact hA1
    have hn2 : tasksNamed nm (applyEffect (env e.cb s.log.length) ts1 s.clock).1 = [X] := by
      rw [show (applyEffect (env e.cb s.log.length) ts1 s.clock).1 =
          (applyActs (env e.cb s.log.length).acts ts1 s.clock).1 from rfl]
      rw [applyActs_tasksNamed_eq _ ts1 s.clock nm heIns heRem, hn1]
    have hcb1 : ∀ x ∈ ts1, x.cb = X.cb → x.name = nm := by
      intro x hx
      rw [hts1] at hx
      rcases List.mem_append.mp hx with hx | hx
      · exact hA2 x (by rw [hts]; exact List.mem_append_left _ hx)
      · rcases List.mem_cons.mp hx with rfl | hx
        · intro hcbeq
          exact absurd hcbeq hcb_ne
        · exact hA2 x (by rw [hts]; exact List.mem_append_right _ (List.mem_cons_of_mem _ hx))
    have hcb2 : ∀ x ∈ (applyEffect (env e.cb s.log.length) ts1 s.clock).1,
        x.cb = X.cb → x.name = nm :=
      applyActs_cbOK _ ts1 s.clock X.cb nm heCb hcb1
    refine ⟨?_, ?_, ?_⟩
    · by_cases hty : e.type = HK_ONESHOT
      · rw [if_pos hty, remove_tasksNamed_ne _ e.name nm hen]
        exact hn2
      · rw [if_neg hty]
        exact hn2
    · by_cases hty : e.type = HK_ONESHOT
      · rw [if_pos hty]
        intro x hx
        exact hcb2 x ((hktask_remove_sublist _ e.name).subset hx)
      · rw [if_neg hty]
        exact hcb2
    · simp [countName_append, hen, hA3]

theorem oneshot_step_done (env : Nat → Nat → Effect) (now : Int)
    (nm : String) (hIns : ∀ c k, effInsertsName nm (env c k) = false)
    (s s1 : CycleState) (hB : OneshotDone nm s)
    (h : cycleStep env now s = some s1) : OneshotDone nm s1 := by
  obtain ⟨hB1, hB2⟩ := hB
  obtain ⟨ts1, e, hfd, rfl⟩ := cycleStep_some env now s s1 h
  obtain ⟨pre, e0, post, hts, hpre, hdue0, heq⟩ := findDue_some now s.tasks _ hfd
  have hts1 : ts1 = pre ++ { e0 with nextdue := now + e0.frequency } :: post :=
    congrArg Prod.fst heq
  have hee0 : e = e0 := congrArg Prod.snd heq
  subst hee0
  have hen : e.name ≠ nm := by
    intro hen
    have : e ∈ tasksNamed nm s.tasks :=
      mem_tasksNamed_of nm e s.tasks
        (by rw [hts]; exact List.mem_append_right _ (List.mem_cons_self _ _)) hen
    rw [hB1] at this
    simp at this
  have heIns : ∀ p ∈ (env e.cb s.log.length).acts, actInsertsName nm p.2 = false := by
    have h2 := hIns e.cb s.log.length
    simp only [effInsertsName, List.any_eq_false, Bool.not_eq_true] at h2
    exact h2
  have hn1 : tasksNamed nm ts1 = [] := by
    rw [hts1, tasksNamed_append, tasksNamed_cons_ne nm _ post (by simpa using hen)]
    rw [hts, tasksNamed_append, tasksNamed_cons_ne nm e post hen] at hB1
    exact hB1
  have hsub := applyActs_tasksNamed_sub (env e.cb s.log.length).acts ts1 s.clock nm heIns
  rw [hn1, List.sublist_nil] at hsub
  constructor
  · by_cases hty : e.type = HK_ONESHOT
    · rw [if_pos hty, remove_tasksNamed_ne _ e.name nm hen]
      exact hsub
    · rw [if_neg hty]
      exact hsub
  · simp [countName_append, hen, hB2]

theorem oneshot_pending_not_terminal (env : Nat → Nat → Effect) (now : Int)
    (nm : String) (X : HKTASK) (hXdue : X.nextdue ≤ now) (s : CycleState)
    (hA : OneshotPending nm X s) : cycleStep env now s ≠ none := by
  intro hnone
  rw [cycleStep_eq_none, findDue_eq_none] at hnone
  have hXmem : X ∈ s.tasks :=
    (mem_of_mem_tasksNamed nm X s.tasks
      (hA.1 ▸ List.mem_singleton_self X)).1
  exact hnone X hXmem hXdue

/-- Claim C1 (amended): consider a due one-shot task `X` that is the
unique entry carrying its name `nm`, in a run in which no callback
registers a task named `nm` or carrying `X`'s callback, and no callback
other than `X`'s own removes the name `nm` (`X`'s own callback MAY remove
its own name). Then at every point of the scan either `X` is still
pending — present exactly once, unexecuted — or it has executed exactly
once and no entry named `nm` remains (in particular, immediately after
the step that executes `X`, `X` is absent, the post-execution
`hktask_remove` being a safe no-op when the callback already removed
itself); and when the scan reaches its termination test having found no
due entry, `X` has necessarily executed exactly once. Without the
unique-name hypothesis the claim is false (see the counterexample). -/
theorem oneshot_unique_name_runs_once (env : Nat → Nat → Effect) (now : Int)
    (nm : String) (X : HKTASK) (s0 : CycleState)
    (hXty : X.type = HK_ONESHOT) (hXdue : X.nextdue ≤ now)
    (hIns : ∀ c k, effInsertsName nm (env c k) = false)
    (hRem : ∀ c k, c ≠ X.cb → effRemovesName nm (env c k) = false)
    (hCb : ∀ c k, effInsertsCb X.cb (env c k) = false)
    (hs0 : OneshotPending nm X s0) :
    ∀ k, (OneshotPending nm X (cycleIter env now k s0) ∨
          OneshotDone nm (cycleIter env now k s0)) ∧
      (cycleStep env now (cycleIter env now k s0) = none →
        OneshotDone nm (cycleIter env now k s0)) := by
  have hinv : ∀ k s, OneshotPending nm X s ∨ OneshotDone nm s →
      OneshotPending nm X (cycleIter env now k s) ∨
      OneshotDone nm (cycleIter env now k s) := by
    intro k
    induction k with
    | zero => intro s hs; exact hs
    | succ n ih =>
      intro s hs
      rw [cycleIter]
      cases hstep : cycleStep env now s with
      | none => exact hs
      | some s1 =>
        refine ih s1 ?_
        rcases hs with hs | hs
        · exact oneshot_step_pending env now nm X hXty hIns hRem hCb s s1 hs hstep
        · exact Or.inr (oneshot_step_done env now nm hIns s s1 hs hstep)
  intro k
  refine ⟨hinv k s0 (Or.inl hs0), ?_⟩
  intro hnone
  rcases hinv k s0 (Or.inl hs0) with hs | hs
  · exact absurd hnone (oneshot_pending_not_terminal env now nm X hXdue _ hs)
  · exact hs

/-- Witness for `oneshot_unique_name_runs_once`: a single due one-shot
task named "x" under callbacks that call no API; after one scan step it
has run exactly once and is gone. -/
theorem oneshot_unique_name_runs_once_witness :
    (OneshotPending "x"
        { name := "x", cb := 0, frequency := 0, type := HK_ONESHOT, nextdue := 3 }
        (cycleIter quietEnv 3 1
          { tasks := [{ name := "x", cb := 0, frequency := 0, type := HK_ONESHOT
                        nextdue := 3 }], clock := 3, log := [] }) ∨
      OneshotDone "x"
        (cycleIter quietEnv 3 1
          { tasks := [{ name := "x", cb := 0, frequency := 0, type := HK_ONESHOT
                        nextdue := 3 }], clock := 3, log := [] })) ∧
    (cycleStep quietEnv 3
        (cycleIter quietEnv 3 1
          { tasks := [{ name := "x", cb := 0, frequency := 0, type := HK_ONESHOT
                        nextdue := 3 }], clock := 3, log := [] }) = none →
      OneshotDone "x"
        (cycleIter quietEnv 3 1
          { tasks := [{ name := "x", cb := 0, frequency := 0, type := HK_ONESHOT
                        nextdue := 3 }], clock := 3, log := [] })) :=
  oneshot_unique_name_runs_once quietEnv 3 "x"
    { name := "x", cb := 0, frequency := 0, type := HK_ONESHOT, nextdue := 3 }
    { tasks := [{ name := "x", cb := 0, frequency := 0, type := HK_ONESHOT
                  nextdue := 3 }], clock := 3, log := [] }
    rfl (by decide) (fun c k => rfl) (fun c k _ => rfl) (fun c k => rfl)
    (by constructor
        · rfl
        · constructor
          · intro e he hcb
            rcases List.mem_singleton.mp he with rfl
            rfl
          · rfl)
    1

theorem dueCount_append (now : Int) (a b : List HKTASK) :
    dueCount now (a ++ b) = dueCount now a + dueCount now b := by
  simp [dueCount, List.filter_append]

theorem dueCount_cons (now : Int) (x : HKTASK) (l : List HKTASK) :
    dueCount now (x :: l) = (if x.nextdue ≤ now then 1 else 0) + dueCount now l := by
  by_cases h : x.nextdue ≤ now
  · simp [dueCount, isDue, h]
    omega
  · simp [dueCount, isDue, h]

theorem dueCount_eq_zero (now : Int) (l : List HKTASK)
    (h : ∀ q ∈ l, ¬ q.nextdue ≤ now) : dueCount now l = 0 := by
  simp only [dueCount, List.length_eq_zero, List.filter_eq_nil_iff]
  intro q hq
  simp [isDue, h q hq]

theorem dueCount_sublist (now : Int) (a b : List HKTASK) (h : a.Sublist b) :
    dueCount now a ≤ dueCount now b :=
  (h.filter (isDue now)).length_le

theorem dueCount_zero_findDue (now : Int) (ts : List HKTASK)
    (h : dueCount now ts = 0) : findDue now ts = none := by
  rw [findDue_eq_none]
  intro e he hdue
  simp only [dueCount, List.length_eq_zero, List.filter_eq_nil_iff] at h
  exact absurd (by simpa [isDue] using hdue) (h e he)

/-- Case analysis on `hktask_remove`: either nothing matched and the list
is unchanged, or exactly the first match was unlinked. -/
theorem hktask_remove_cases (ts : List HKTASK) (m : String) :
    ((hktask_remove ts m).1 = ts ∧ ∀ e ∈ ts, e.name ≠ m) ∨
    ∃ a y b, ts = a ++ y :: b ∧ y.name = m ∧ (∀ p ∈ a, p.name ≠ m) ∧
      (hktask_remove ts m).1 = a ++ b := by
  unfold hktask_remove
  cases hrw : removeWalk m ts with
  | none => exact Or.inl ⟨rfl, (removeWalk_eq_none m ts).mp hrw⟩
  | some r =>
    obtain ⟨a, y, b, hts, hy, ha, hr⟩ := removeWalk_some m ts r hrw
    exact Or.inr ⟨a, y, b, hts, hy, ha, by simp [hr]⟩

theorem applyAction_scanInv (a : HKAction) (ts : List HKTASK) (t now : Int)
    (ha : actDelayOK a = true) (ht : now ≤ t)
    (hPW : List.Pairwise (NameGuard now) ts) (hFB : FreqGuard now ts) :
    List.Pairwise (NameGuard now) (applyAction a ts t) ∧
    FreqGuard now (applyAction a ts t) ∧
    dueCount now (applyAction a ts t) ≤ dueCount now ts := by
  cases a with
  | add m c f =>
    have hf : 1 ≤ f := by simpa [actDelayOK] using ha
    rcases hktask_add_fst ts m c f t with h1 | h1 <;>
      rw [show applyAction (HKAction.add m c f) ts t = (hktask_add ts m c f t).1 from rfl, h1]
    · exact ⟨hPW, hFB, le_refl _⟩
    · have hnotdue : ¬ (t + f ≤ now) := by omega
      refine ⟨?_, ?_, ?_⟩
      · rw [List.pairwise_append]
        refine ⟨hPW, by simp, ?_⟩
        intro x hx y hy
        rcases List.mem_singleton.mp hy with rfl
        intro hdue
        exact absurd hdue hnotdue
      · intro x hx
        rcases List.mem_append.mp hx with hx | hx
        · exact hFB x hx
        · rcases List.mem_singleton.mp hx with rfl
          intro _ hdue
          exact absurd hdue hnotdue
      · rw [dueCount_append, dueCount_cons]
        simp [hnotdue, dueCount]
  | oneshot m c w =>
    have hw : 1 ≤ w := by simpa [actDelayOK] using ha
    rw [show applyAction (HKAction.oneshot m c w) ts t = (hktask_oneshot ts m c w t).1 from rfl,
      hktask_oneshot_eq]
    have hnotdue : ¬ (t + w ≤ now) := by omega
    refine ⟨?_, ?_, ?_⟩
    · rw [List.pairwise_append]
      refine ⟨hPW, by simp, ?_⟩
      intro x hx y hy
      rcases List.mem_singleton.mp hy with rfl
      intro hdue
      exact absurd hdue hnotdue
    · intro x hx
      rcases List.mem_append.mp hx with hx | hx
      · exact hFB x hx
      · rcases List.mem_singleton.mp hx with rfl
        intro _ hdue
        exact absurd hdue hnotdue
    · rw [dueCount_append, dueCount_cons]
      simp [hnotdue, dueCount]
  | remove m =>
    have hsub := hktask_remove_sublist ts m
    exact ⟨hPW.sublist hsub, fun x hx h1 h2 => hFB x (hsub.subset hx) h1 h2,
      dueCount_sublist now _ _ hsub⟩

theorem applyActs_scanInv (acts : List (Nat × HKAction)) (ts : List HKTASK)
    (t now : Int) (ha : ∀ p ∈ acts, actDelayOK p.2 = true) (ht : now ≤ t)
    (hPW : List.Pairwise (NameGuard now) ts) (hFB : FreqGuard now ts) :
    List.Pairwise (NameGuard now) (applyActs acts ts t).1 ∧
    FreqGuard now (applyActs acts ts t).1 ∧
    dueCount now (applyActs acts ts t).1 ≤ dueCount now ts := by
  induction acts generalizing ts t with
  | nil => exact ⟨hPW, hFB, le_refl _⟩
  | cons p rest ih =>
    obtain ⟨d, a⟩ := p
    simp only [applyActs]
    obtain ⟨h1, h2, h3⟩ := applyAction_scanInv a ts (t + (d : Int)) now
      (ha (d, a) (List.mem_cons_self _ _)) (by omega) hPW hFB
    obtain ⟨h4, h5, h6⟩ := ih (applyAction a ts (t + (d : Int))) (t + (d : Int))
      (fun q hq => ha q (List.mem_cons_of_mem _ hq)) (by omega) h1 h2
    exact ⟨h4, h5, le_trans h6 h3⟩

theorem applyAction_dueCount (a : HKAction) (ts : List HKTASK) (t now : Int)
    (ha : actDelayOK a = true) (ht : now ≤ t) :
    dueCount now (applyAction a ts t) ≤ dueCount now ts := by
  cases a with
  | add m c f =>
    have hf : 1 ≤ f := by simpa [actDelayOK] using ha
    rcases hktask_add_fst ts m c f t with h1 | h1
    · rw [show applyAction (HKAction.add m c f) ts t = (hktask_add ts m c f t).1 from rfl, h1]
    · rw [show applyAction (HKAction.add m c f) ts t = (hktask_add ts m c f t).1 from rfl, h1,
        dueCount_append, dueCount_cons]
      have hnotdue : ¬ (t + f ≤ now) := by omega
      simp [hnotdue, dueCount]
  | oneshot m c w =>
    have hw : 1 ≤ w := by simpa [actDelayOK] using ha
    rw [show applyAction (HKAction.oneshot m c w) ts t = (hktask_oneshot ts m c w t).1 from rfl,
      hktask_oneshot_eq, dueCount_append, dueCount_cons]
    have hnotdue : ¬ (t + w ≤ now) := by omega
    simp [hnotdue, dueCount]
  | remove m => exact dueCount_sublist now _ _ (hktask_remove_sublist ts m)

theorem applyActs_dueCount (acts : List (Nat × HKAction)) (ts : List HKTASK)
    (t now : Int) (ha : ∀ p ∈ acts, actDelayOK p.2 = true) (ht : now ≤ t) :
    dueCount now (applyActs acts ts t).1 ≤ dueCount now ts := by
  induction acts generalizing ts t with
  | nil => exact le_refl _
  | cons p rest ih =>
    obtain ⟨d, a⟩ := p
    simp only [applyActs]
    exact le_trans
      (ih (applyAction a ts (t + (d : Int))) (t + (d : Int))
        (fun q hq => ha q (List.mem_cons_of_mem _ hq)) (by omega))
      (applyAction_dueCount a ts (t + (d : Int)) now
        (ha (d, a) (List.mem_cons_self _ _)) (by omega))

theorem applyAction_dm (a : HKAction) (ts : List HKTASK) (t now : Int)
    (m : String) (h : DueNamed now m ts) :
    DueNamed now m (applyAction a ts t) ∨
      dueCount now (applyAction a ts t) < dueCount now ts := by
  obtain ⟨x, hx, hxm, hxd⟩ := h
  cases a with
  | add m2 c f =>
    left
    rcases hktask_add_fst ts m2 c f t with h1 | h1 <;>
      rw [show applyAction (HKAction.add m2 c f) ts t = (hktask_add ts m2 c f t).1 from rfl, h1]
    · exact ⟨x, hx, hxm, hxd⟩
    · exact ⟨x, List.mem_append_left _ hx, hxm, hxd⟩
  | oneshot m2 c w =>
    left
    rw [show applyAction (HKAction.oneshot m2 c w) ts t = (hktask_oneshot ts m2 c w t).1 from rfl,
      hktask_oneshot_eq]
    exact ⟨x, List.mem_append_left _ hx, hxm, hxd⟩
  | remove k =>
    rw [show applyAction (HKAction.remove k) ts t = (hktask_remove ts k).1 from rfl]
    rcases hktask_remove_cases ts k with ⟨hres, _⟩ | ⟨a2, y, b, hts, hy, ha2, hres⟩
    · left
      rw [hres]
      exact ⟨x, hx, hxm, hxd⟩
    · by_cases hxr : x ∈ a2 ++ b
      · left
        rw [hres]
        exact ⟨x, hxr, hxm, hxd⟩
      · have hxy : x = y := by
          rw [hts] at hx
          rcases List.mem_append.mp hx with h1 | h1
          · exact absurd (List.mem_append_left b h1) hxr
          · rcases List.mem_cons.mp h1 with rfl | h1
            · rfl
            · exact absurd (List.mem_append_right a2 h1) hxr
        subst hxy
        right
        rw [hres, hts, dueCount_append, dueCount_append, dueCount_cons, if_pos hxd]
        omega

theorem applyActs_dm (acts : List (Nat × HKAction)) (ts : List HKTASK)
    (t now : Int) (m : String) (ha : ∀ p ∈ acts, actDelayOK p.2 = true)
    (ht : now ≤ t) (h : DueNamed now m ts) :
    DueNamed now m (applyActs acts ts t).1 ∨
      dueCount now (applyActs acts ts t).1 < dueCount now ts := by
  induction acts generalizing ts t with
  | nil => exact Or.inl h
  | cons p rest ih =>
    obtain ⟨d, a⟩ := p
    simp only [applyActs]
    rcases applyAction_dm a ts (t + (d : Int)) now m h with h1 | h1
    · rcases ih (applyAction a ts (t + (d : Int))) (t + (d : Int))
        (fun q hq => ha q (List.mem_cons_of_mem _ hq)) (by omega) h1 with h2 | h2
      · exact Or.inl h2
      · exact Or.inr (lt_of_lt_of_le h2
          (applyAction_dueCount a ts (t + (d : Int)) now
            (ha (d, a) (List.mem_cons_self _ _)) (by omega)))
    · exact Or.inr (lt_of_le_of_lt
        (applyActs_dueCount rest (applyAction a ts (t + (d : Int))) (t + (d : Int)) now
          (fun q hq => ha q (List.mem_cons_of_mem _ hq)) (by omega))
        h1)

theorem applyAction_hm (a : HKAction) (ts : List HKTASK) (t now : Int)
    (m : String) (ha : actDelayOK a = true) (ht : now ≤ t)
    (h : List.Pairwise (RmGuard now m) ts) :
    List.Pairwise (RmGuard now m) (applyAction a ts t) := by
  cases a with
  | add m2 c f =>
    have hf : 1 ≤ f := by simpa [actDelayOK] using ha
    rcases hktask_add_fst ts m2 c f t with h1 | h1 <;>
      rw [show applyAction (HKAction.add m2 c f) ts t = (hktask_add ts m2 c f t).1 from rfl, h1]
    · exact h
    · rw [List.pairwise_append]
      refine ⟨h, by simp, ?_⟩
      intro x hx y hy
      rcases List.mem_singleton.mp hy with rfl
      intro _ hdue
      have hnd : ¬ (t + f ≤ now) := by omega
      exact absurd hdue hnd
  | oneshot m2 c w =>
    have hw : 1 ≤ w := by simpa [actDelayOK] using ha
    rw [show applyAction (HKAction.oneshot m2 c w) ts t = (hktask_oneshot ts m2 c w t).1 from rfl,
      hktask_oneshot_eq, List.pairwise_append]
    refine ⟨h, by simp, ?_⟩
    intro x hx y hy
    rcases List.mem_singleton.mp hy with rfl
    intro _ hdue
    have hnd : ¬ (t + w ≤ now) := by omega
    exact absurd hdue hnd
  | remove k => exact h.sublist (hktask_remove_sublist ts k)

theorem applyActs_hm (acts : List (Nat × HKAction)) (ts : List HKTASK)
    (t now : Int) (m : String) (ha : ∀ p ∈ acts, actDelayOK p.2 = true)
    (ht : now ≤ t) (h : List.Pairwise (RmGuard now m) ts) :
    List.Pairwise (RmGuard now m) (applyActs acts ts t).1 := by
  induction acts generalizing ts t with
  | nil => exact h
  | cons p rest ih =>
    obtain ⟨d, a⟩ := p
    simp only [applyActs]
    exact ih (applyAction a ts (t + (d : Int))) (t + (d : Int))
      (fun q hq => ha q (List.mem_cons_of_mem _ hq)) (by omega)
      (applyAction_hm a ts (t + (d : Int)) now m
        (ha (d, a) (List.mem_cons_self _ _)) (by omega) h)

theorem applyEffect_fst (eff : Effect) (ts : List HKTASK) (t : Int) :
    (applyEffect eff ts t).1 = (applyActs eff.acts ts t).1 := rfl

/-- One executed task strictly decreases the number of due entries, and
preserves the scan invariants: entries are `NameGuard`-ordered, due
repeated entries have interval at least one second, and the clock is at
or past the scan's `now`. Callbacks are constrained to register future
work only (`effOK`). -/
theorem scan_step (env : Nat → Nat → Effect) (now : Int)
    (henv : ∀ c k, effOK (env c k) = true) (s s1 : CycleState)
    (hPW : List.Pairwise (NameGuard now) s.tasks) (hFB : FreqGuard now s.tasks)
    (hCL : now ≤ s.clock) (hstep : cycleStep env now s = some s1) :
    List.Pairwise (NameGuard now) s1.tasks ∧ FreqGuard now s1.tasks ∧
    now ≤ s1.clock ∧ dueCount now s1.tasks < dueCount now s.tasks := by
  obtain ⟨ts1, e, hfd, rfl⟩ := cycleStep_some env now s s1 hstep
  obtain ⟨pre, e0, post, hts, hpre, hdue, heq⟩ := findDue_some now s.tasks _ hfd
  have hts1 : ts1 = pre ++ { e0 with nextdue := now + e0.frequency } :: post :=
    congrArg Prod.fst heq
  have hee0 : e = e0 := congrArg Prod.snd heq
  subst hee0
  have hacts : ∀ p ∈ (env e.cb s.log.length).acts, actDelayOK p.2 = true := by
    have h2 := henv e.cb s.log.length
    simpa [effOK, List.all_eq_true] using h2
  have hcount : dueCount now s.tasks = 1 + dueCount now post := by
    rw [hts, dueCount_append, dueCount_cons, if_pos hdue, dueCount_eq_zero now pre hpre]
    omega
  rw [hts, List.pairwise_append] at hPW
  obtain ⟨hPWpre, hPWcons, hPWcross⟩ := hPW
  rw [List.pairwise_cons] at hPWcons
  obtain ⟨hepost, hPWpost⟩ := hPWcons
  have hprenames : ∀ a ∈ pre, a.name ≠ e.name :=
    fun a ha => hPWcross a ha e (List.mem_cons_self _ _) hdue
  have hemem : e ∈ s.tasks := by
    rw [hts]
    exact List.mem_append_right _ (List.mem_cons_self _ _)
  have hPW1 : List.Pairwise (NameGuard now) ts1 := by
    rw [hts1, List.pairwise_append, List.pairwise_cons]
    refine ⟨hPWpre, ⟨?_, hPWpost⟩, ?_⟩
    · intro b hb hbdue
      exact hepost b hb hbdue
    · intro a ha b hb
      rcases List.mem_cons.mp hb with rfl | hb
      · intro hdue2
        exact hprenames a ha
      · exact hPWcross a ha b (List.mem_cons_of_mem _ hb)
  have hFB1 : FreqGuard now ts1 := by
    rw [hts1]
    intro x hx
    rcases List.mem_append.mp hx with hx | hx
    · exact hFB x (by rw [hts]; exact List.mem_append_left _ hx)
    · rcases List.mem_cons.mp hx with rfl | hx
      · intro hrep _
        exact hFB e hemem hrep hdue
      · exact hFB x (by rw [hts]; exact List.mem_append_right _ (List.mem_cons_of_mem _ hx))
  obtain ⟨hPW2, hFB2, hdc2⟩ := applyActs_scanInv (env e.cb s.log.length).acts
    ts1 s.clock now hacts hCL hPW1 hFB1
  have hclock1 : now ≤ (applyEffect (env e.cb s.log.length) ts1 s.clock).2 :=
    le_trans hCL (applyEffect_clock_mono _ ts1 s.clock)
  by_cases hty : e.type = HK_ONESHOT
  · -- one-shot: the executed entry's name is removed afterwards
    simp only [if_pos hty]
    refine ⟨List.Pairwise.sublist (hktask_remove_sublist _ e.name) ?_,
      fun x hx h1 h2 => ?_, hclock1, ?_⟩
    · rw [applyEffect_fst]
      exact hPW2
    · refine hFB2 x ?_ h1 h2
      have := (hktask_remove_sublist (applyEffect (env e.cb s.log.length) ts1 s.clock).1
        e.name).subset hx
      rw [applyEffect_fst] at this
      exact this
    · rw [applyEffect_fst] at *
      by_cases hdu2 : now + e.frequency ≤ now
      · -- the refreshed entry is still due; removal deletes a due entry
        have hDM : DueNamed now e.name ts1 := by
          refine ⟨{ e with nextdue := now + e.frequency }, ?_, rfl, hdu2⟩
          rw [hts1]
          exact List.mem_append_right _ (List.mem_cons_self _ _)
        have hHm1 : List.Pairwise (RmGuard now e.name) ts1 := by
          refine hPW1.imp ?_
          intro a b hg hbm hbdue
          rw [← hbm]
          exact hg hbdue
        have hHm2 := applyActs_hm (env e.cb s.log.length).acts ts1 s.clock now
          e.name hacts hCL hHm1
        have hc1 : dueCount now ts1 = 1 + dueCount now post := by
          rw [hts1, dueCount_append, dueCount_cons, if_pos hdu2,
            dueCount_eq_zero now pre hpre]
          omega
        rcases applyActs_dm (env e.cb s.log.length).acts ts1 s.clock now e.name
          hacts hCL hDM with hdm2 | hlt
        · obtain ⟨x, hx2, hxm, hxd⟩ := hdm2
          rcases hktask_remove_cases
            ((applyActs (env e.cb s.log.length).acts ts1 s.clock).1) e.name with
            ⟨hres, hnone⟩ | ⟨a2, y, b, hts2, hy, ha2, hres⟩
          · exact absurd hxm (hnone x hx2)
          · have hxy : x = y := by
              rw [hts2] at hx2
              rcases List.mem_append.mp hx2 with h1 | h1
              · exact absurd hxm (ha2 x h1)
              · rcases List.mem_cons.mp h1 with rfl | h1
                · rfl
                · exfalso
                  rw [hts2, List.pairwise_append] at hHm2
                  obtain ⟨_, hcons2, _⟩ := hHm2
                  rw [List.pairwise_cons] at hcons2
                  exact (hcons2.1 x h1 hxm hxd) hy
            subst hxy
            have h8 : dueCount now
                ((applyActs (env e.cb s.log.length).acts ts1 s.clock).1) =
                dueCount now a2 + (1 + dueCount now b) := by
              rw [hts2, dueCount_append, dueCount_cons, if_pos hxd]
            rw [hres, dueCount_append, hcount]
            omega
        · rw [hcount]
          have h9 := dueCount_sublist now _ _ (hktask_remove_sublist
            ((applyActs (env e.cb s.log.length).acts ts1 s.clock).1) e.name)
          omega
      · -- the refreshed entry is no longer due
        have hc1 : dueCount now ts1 = dueCount now post := by
          rw [hts1, dueCount_append, dueCount_cons, if_neg hdu2,
            dueCount_eq_zero now pre hpre]
          omega
        have h9 := dueCount_sublist now _ _ (hktask_remove_sublist
          ((applyActs (env e.cb s.log.length).acts ts1 s.clock).1) e.name)
        rw [hcount]
        omega
  · -- repeated task: its refreshed nextdue lies strictly in the future
    have hrep : e.type = HK_REPEATED := by
      cases h2 : e.type
      · rfl
      · exact absurd h2 hty
    have hf : 1 ≤ e.frequency := hFB e hemem hrep hdue
    have hc1 : dueCount now ts1 = dueCount now post := by
      rw [hts1, dueCount_append, dueCount_cons,
        if_neg (by show ¬ (now + e.frequency ≤ now); omega),
        dueCount_eq_zero now pre hpre]
      omega
    simp only [if_neg hty]
    refine ⟨?_, ?_, hclock1, ?_⟩
    · rw [applyEffect_fst]
      exact hPW2
    · rw [applyEffect_fst]
      exact hFB2
    · rw [applyEffect_fst, hcount]
      omega

theorem scan_terminates_aux (env : Nat → Nat → Effect) (now : Int)
    (henv : ∀ c k, effOK (env c k) = true) (N : Nat) :
    ∀ s : CycleState, List.Pairwise (NameGuard now) s.tasks →
      FreqGuard now s.tasks → now ≤ s.clock → dueCount now s.tasks ≤ N →
      (runCycle env now (N + 1) s).isSome = true := by
  induction N with
  | zero =>
    intro s h1 h2 h3 h4
    have h0 : dueCount now s.tasks = 0 := Nat.le_zero.mp h4
    have hnone : cycleStep env now s = none :=
      (cycleStep_eq_none env now s).mpr (dueCount_zero_findDue now s.tasks h0)
    rw [runCycle, hnone]
    rfl
  | succ n ih =>
    intro s h1 h2 h3 h4
    rw [runCycle]
    cases hstep : cycleStep env now s with
    | none => rfl
    | some s1 =>
      obtain ⟨hp1, hp2, hp3, hp4⟩ := scan_step env now henv s s1 h1 h2 h3 hstep
      show (runCycle env now (n + 1) s1).isSome = true
      exact ih s1 hp1 hp2 hp3 (by omega)

/-- Claim C3 (amended): the due-task scan of a single cycle terminates
when (i) task names are pairwise distinct at the start of the scan,
(ii) every repeated task present has interval at least one second, and
(iii) callbacks only register tasks whose interval/delay is at least one
second; an explicit bound is one executed task per initially due entry.
The claim's unrestricted version is false: a due repeated task with
interval 0 is rewritten `nextdue = now + 0 = now`, stays due, and the
restarted scan spins forever (see the counterexample); the claim's
justification that "each executed due entry is given a FUTURE nextDue"
fails exactly there. -/
theorem scan_cycle_terminates (env : Nat → Nat → Effect) (now : Int)
    (s0 : CycleState)
    (hnames : List.Pairwise (fun a b => a.name ≠ b.name) s0.tasks)
    (hfreq : ∀ e ∈ s0.tasks, e.type = HK_REPEATED → 1 ≤ e.frequency)
    (henv : ∀ c k, effOK (env c k) = true)
    (hclock : now ≤ s0.clock) :
    (runCycle env now (dueCount now s0.tasks + 1) s0).isSome = true := by
  refine scan_terminates_aux env now henv (dueCount now s0.tasks) s0 ?_ ?_ hclock (le_refl _)
  · refine hnames.imp ?_
    intro a b h hdue
    exact h
  · exact fun e he h1 _ => hfreq e he h1

/-- Witness for `scan_cycle_terminates`: one due repeated task with
interval 5; the scan finishes within its bound of two loop iterations. -/
theorem scan_cycle_terminates_witness :
    (runCycle quietEnv 3
      (dueCount 3 [{ name := "a", cb := 0, frequency := 5, type := HK_REPEATED
                     nextdue := 3 }] + 1)
      { tasks := [{ name := "a", cb := 0, frequency := 5, type := HK_REPEATED
                    nextdue := 3 }], clock := 3, log := [] }).isSome = true :=
  scan_cycle_terminates quietEnv 3
    { tasks := [{ name := "a", cb := 0, frequency := 5, type := HK_REPEATED
                  nextdue := 3 }], clock := 3, log := [] }
    (by simp)
    (by intro e he h1
        rcases List.mem_singleton.mp he with rfl
        decide)
    (fun c k => rfl) (by decide)
